import Mathlib

/-!
Verification of the core puzzle engine of the escape-ice game
(`src/app.py`): grid generation, hazard spread simulation, reachability
analysis, difficulty calibration and the runtime movement check.

Conventions of the shallow embedding:
* A grid is a `List (List Char)` exactly as the Python list of lists of
  one-character strings; cells are '.', '#', 'I'.
* A freeze-time matrix entry is `Option Nat`: `none` stands for
  `math.inf`, `some t` for the integer `t`.
* Python's `random.shuffle` and `random.randint` draw from a pseudorandom
  source; the embedding passes the draws explicitly: a shuffled list is an
  arbitrary input list (constrained to be a permutation of the shuffled
  sequence where a theorem needs it), and a `randint(lo, hi)` draw is
  `lo + d % (hi + 1 - lo)` for an arbitrary `d : Nat`, which ranges over
  exactly the integers in `[lo, hi]`.
* Unbounded `while` loops are modelled with an explicit fuel parameter;
  the invariants proved below hold for every fuel value.
-/

namespace EscapeIce

/-- Freeze-time value: `none` is `math.inf`, `some t` is the integer `t`. -/
abbrev FT := Option Nat

/-- The comparison `n < v` of an integer with a freeze time (`inf` compares
greater than every integer, as in Python). -/
def ltNatFT (n : Nat) (v : FT) : Bool :=
  match v with
  | none => true
  | some t => n < t

/-- The comparison `v <= n` of a freeze time with an integer (`inf <= n` is
false, as in Python). -/
def leFTNat (v : FT) (n : Nat) : Bool :=
  match v with
  | none => false
  | some t => t ≤ n

/-- Read `m[r][c]` with a default for out-of-range indices (the Python code
only indexes after a bounds check, so the default is never consulted on the
code paths modelled here). -/
def mgetD {α : Type} (m : List (List α)) (r c : Nat) (d : α) : α :=
  (m.getD r []).getD c d

/-- Grid cell access `grid[r][c]`. -/
def gget (g : List (List Char)) (r c : Nat) : Char := mgetD g r c '#'

/-- Freeze-time access `ice_time[r][c]`. -/
def fget (m : List (List FT)) (r c : Nat) : FT := mgetD m r c none

/-- Visited-flag access `visited[r][c]`. -/
def vget (v : List (List Bool)) (r c : Nat) : Bool := mgetD v r c false

/-- In-place update `m[r][c] = a` (a no-op when out of range). -/
def mset {α : Type} (m : List (List α)) (r c : Nat) (a : α) : List (List α) :=
  m.set r ((m.getD r []).set c a)

/-- Number of rows, `len(grid)`. -/
def Rdim {α : Type} (g : List (List α)) : Nat := g.length

/-- Number of columns, `len(grid[0])`. -/
def Cdim {α : Type} (g : List (List α)) : Nat := (g.headD []).length

/-- The bounds check `0 <= nr < R and 0 <= nc < C` on Python integers. -/
def inB (R C : Nat) (nr nc : Int) : Prop :=
  0 ≤ nr ∧ nr < (R : Int) ∧ 0 ≤ nc ∧ nc < (C : Int)

instance (R C : Nat) (nr nc : Int) : Decidable (inB R C nr nc) := by
  unfold inB; infer_instance

/-- The direction list `[(-1,0),(1,0),(0,-1),(0,1)]`. -/
def directions : List (Int × Int) := [(-1, 0), (1, 0), (0, -1), (0, 1)]

/-- Python's `random.randint(lo, hi)` as a function of an entropy draw `d`:
it yields exactly the values `lo..hi` as `d` ranges over `Nat`. -/
def randint (lo hi d : Nat) : Nat := lo + d % (hi + 1 - lo)

/-- Row-major list of all cell indices, as produced by the nested
`for r in range(R): for c in range(C)` loops. -/
def allIndices (R C : Nat) : List (Nat × Nat) :=
  ((List.range R).map (fun r => (List.range C).map (fun c => (r, c)))).flatten

/-! ### HazardSpreadSimulator: `compute_ice_times` -/

/-- The direction prefix `dirs[:random.randint(3,3)]` actually attempted at
one expansion step, from the shuffled direction list and the `randint`
draw. -/
def attemptedDirs (x : List (Int × Int) × Nat) : List (Int × Int) :=
  x.1.take (randint 3 3 x.2)

/-- The inner `for dr, dc in dirs[:...]` loop body of `compute_ice_times`:
relax each attempted neighbor of the popped entry `(r, c, t)`, threading the
freeze-time matrix and the queue. -/
def iceExpand (g : List (List Char)) (R C interval r c t : Nat) :
    List (Int × Int) → List (List FT) × List (Nat × Nat × Nat) →
    List (List FT) × List (Nat × Nat × Nat)
  | [], s => s
  | d :: ds, (ice, q) =>
    let nr : Int := (r : Int) + d.1
    let nc : Int := (c : Int) + d.2
    if inB R C nr nc ∧ gget g nr.toNat nc.toNat ≠ '#' ∧
        ltNatFT (t + interval) (fget ice nr.toNat nc.toNat) = true then
      iceExpand g R C interval r c t ds
        (mset ice nr.toNat nc.toNat (some (t + interval)),
         q ++ [(nr.toNat, nc.toNat, t + interval)])
    else
      iceExpand g R C interval r c t ds (ice, q)

/-- The `while q:` loop of `compute_ice_times`; `n` indexes the entropy
stream (one shuffle and one `randint(3,3)` draw per popped entry), `fuel`
bounds the number of iterations. -/
def computeIceAux (g : List (List Char)) (R C interval : Nat)
    (ρ : Nat → List (Int × Int) × Nat) :
    Nat → Nat → List (List FT) → List (Nat × Nat × Nat) → List (List FT)
  | _, 0, ice, _ => ice
  | _, _ + 1, ice, [] => ice
  | n, fuel + 1, ice, (r, c, t) :: q =>
    let rv := iceExpand g R C interval r c t (attemptedDirs (ρ n)) (ice, q)
    computeIceAux g R C interval ρ (n + 1) fuel rv.1 rv.2

/-- The seed-initialisation double loop of `compute_ice_times`: start from
an all-`inf` matrix, set every 'I' cell to 0 and enqueue it in row-major
order. -/
def iceInit (g : List (List Char)) (R C : Nat) :
    List (List FT) × List (Nat × Nat × Nat) :=
  (allIndices R C).foldl
    (fun s p =>
      if gget g p.1 p.2 = 'I' then
        (mset s.1 p.1 p.2 (some 0), s.2 ++ [(p.1, p.2, 0)])
      else s)
    (List.replicate R (List.replicate C (none : FT)), [])

/-- `compute_ice_times(grid, spread_interval)` with the entropy stream `ρ`
made explicit. The fuel is a generous bound; every invariant proved below
holds for all fuel values. -/
def compute_ice_times (g : List (List Char)) (interval : Nat)
    (ρ : Nat → List (Int × Int) × Nat) : List (List FT) :=
  let R := Rdim g
  let C := Cdim g
  let s := iceInit g R C
  computeIceAux g R C interval ρ 0 (R * C * R * C + R * C + 1) s.1 s.2

/-! ### ReachabilityAnalyzer: `find_shortest_safe_steps` -/

/-- The inner `for dr, dc in [(-1,0),(1,0),(0,-1),(0,1)]` loop body of
`find_shortest_safe_steps`: push each admissible neighbor of the popped
entry `(r, c, steps)` and mark it visited. -/
def bfsExpand (g : List (List Char)) (ice : List (List FT))
    (R C r c steps : Nat) :
    List (Int × Int) → List (Nat × Nat × Nat) × List (List Bool) →
    List (Nat × Nat × Nat) × List (List Bool)
  | [], s => s
  | d :: ds, (q, v) =>
    let nr : Int := (r : Int) + d.1
    let nc : Int := (c : Int) + d.2
    if inB R C nr nc ∧ vget v nr.toNat nc.toNat = false ∧
        gget g nr.toNat nc.toNat ≠ '#' ∧
        ltNatFT (steps + 1) (fget ice nr.toNat nc.toNat) = true then
      bfsExpand g ice R C r c steps ds
        (q ++ [(nr.toNat, nc.toNat, steps + 1)], mset v nr.toNat nc.toNat true)
    else
      bfsExpand g ice R C r c steps ds (q, v)

/-- The `while q:` loop of `find_shortest_safe_steps`. -/
def bfsAux (g : List (List Char)) (ice : List (List FT)) (R C : Nat) :
    Nat → List (Nat × Nat × Nat) → List (List Bool) → Option Nat
  | 0, _, _ => none
  | _ + 1, [], _ => none
  | fuel + 1, (r, c, steps) :: q, v =>
    if (r, c) = (0, C - 1) then some steps
    else
      let rv := bfsExpand g ice R C r c steps directions (q, v)
      bfsAux g ice R C fuel rv.1 rv.2

/-- `find_shortest_safe_steps(grid, ice_time)`. The fuel `R*C + 1` is
proved sufficient below: every pop either returns or strictly decreases
`queue length + number of unvisited cells`, which starts at `R*C`. -/
def find_shortest_safe_steps (g : List (List Char)) (ice : List (List FT)) :
    Option Nat :=
  let R := Rdim g
  let C := Cdim g
  bfsAux g ice R C (R * C + 1) [(0, 0, 0)]
    (mset (List.replicate R (List.replicate C false)) 0 0 true)

/-! ### DifficultyCalibrator: `generate_balanced_ice` -/

/-- The `while True:` loop of `generate_balanced_ice`; `σ k` is the entropy
stream consumed by the `k`-th call of `compute_ice_times`, `fuel` bounds
the number of iterations (the Python loop has no bound; termination is the
subject of claim C8). -/
def gbiAux (g : List (List Char)) (max_steps : Nat)
    (σ : Nat → Nat → List (Int × Int) × Nat) :
    Nat → Nat → Nat → Option (List (List FT) × Nat)
  | _, _, 0 => none
  | interval, k, fuel + 1 =>
    let ice := compute_ice_times g interval (σ k)
    match find_shortest_safe_steps g ice with
    | some s =>
      if s < max_steps then some (ice, interval)
      else gbiAux g max_steps σ (interval + 1) (k + 1) fuel
    | none => gbiAux g max_steps σ (interval + 1) (k + 1) fuel

/-- `generate_balanced_ice(grid, max_steps)`: the interval starts at 2. -/
def generate_balanced_ice (g : List (List Char)) (max_steps : Nat)
    (σ : Nat → Nat → List (Int × Int) × Nat) (fuel : Nat) :
    Option (List (List FT) × Nat) :=
  gbiAux g max_steps σ 2 0 fuel

/-! ### GridFactory: `generate_grid` -/

/-- The hard-coded base layout: 10×10, walls at (0,8), (4,0), (9,5). -/
def base_grid : List (List Char) :=
  [['.', '.', '.', '.', '.', '.', '.', '.', '#', '.'],
   ['.', '.', '.', '.', '.', '.', '.', '.', '.', '.'],
   ['.', '.', '.', '.', '.', '.', '.', '.', '.', '.'],
   ['.', '.', '.', '.', '.', '.', '.', '.', '.', '.'],
   ['#', '.', '.', '.', '.', '.', '.', '.', '.', '.'],
   ['.', '.', '.', '.', '.', '.', '.', '.', '.', '.'],
   ['.', '.', '.', '.', '.', '.', '.', '.', '.', '.'],
   ['.', '.', '.', '.', '.', '.', '.', '.', '.', '.'],
   ['.', '.', '.', '.', '.', '.', '.', '.', '.', '.'],
   ['.', '.', '.', '.', '.', '#', '.', '.', '.', '.']]

/-- The eligibility comprehension of `generate_grid`: `r in range(R)`,
`c in range(C//2, C)`, open in the base layout, not the start or exit, not
in the 3×3 corner zone. -/
def possible_positions : List (Nat × Nat) :=
  ((List.range (Rdim base_grid)).map (fun r =>
    ((List.range' (Cdim base_grid / 2) (Cdim base_grid - Cdim base_grid / 2)).filter
      (fun c => decide (gget base_grid r c = '.' ∧
        (r, c) ≠ ((0 : Nat), (0 : Nat)) ∧
        (r, c) ≠ ((0 : Nat), Cdim base_grid - 1) ∧
        ¬(r < 3 ∧ c < 3)))).map (fun c => (r, c)))).flatten

/-- `generate_grid()` with the draws explicit: `d` is the entropy of
`randint(3, 5)` and `π` is the shuffled copy of `possible_positions`; the
first `min(num_ice, len(positions))` entries of `π` are set to 'I'. -/
def generate_grid (d : Nat) (π : List (Nat × Nat)) : List (List Char) :=
  (π.take (min (randint 3 5 d) π.length)).foldl
    (fun g p => mset g p.1 p.2 'I') base_grid

/-! ### Runtime movement check (the move-button handler) -/

/-- Outcome of one press of a direction button. -/
inductive MoveResult where
  | invalid : MoveResult
  | frozen : MoveResult
  | moved : Nat → Nat → Nat → Bool → MoveResult
deriving DecidableEq

/-- The move-button handler of the top-level script: bounds and wall check,
then `if new_steps >= ice_time[nr][nc]` game over, else the player occupies
the target cell (winning when it is the exit). -/
def move_result (g : List (List Char)) (ice : List (List FT))
    (pos_r pos_c current_steps : Nat) (d : Int × Int) : MoveResult :=
  let R := Rdim g
  let C := Cdim g
  let nr : Int := (pos_r : Int) + d.1
  let nc : Int := (pos_c : Int) + d.2
  if inB R C nr nc ∧ gget g nr.toNat nc.toNat ≠ '#' then
    if leFTNat (fget ice nr.toNat nc.toNat) (current_steps + 1) then
      MoveResult.frozen
    else
      MoveResult.moved nr.toNat nc.toNat (current_steps + 1)
        (decide ((nr.toNat, nc.toNat) = (0, C - 1)))
  else MoveResult.invalid

/-- The session-initialisation error branch condition
`ice_time[0][0] <= 0`. -/
def frozen_at_start (ice : List (List FT)) : Bool := leFTNat (fget ice 0 0) 0

/-! ### Specification-side notions -/

/-- The exit cell `(0, C-1)`. -/
def exitCell (g : List (List Char)) : Nat × Nat := (0, Cdim g - 1)

/-- One-step reachability of cell `q` from cell `p` through one of the
offsets in `ds` (on Python integers, so a negative intermediate coordinate
never aliases a valid cell). -/
def adjD (ds : List (Int × Int)) (p q : Nat × Nat) : Prop :=
  ∃ d ∈ ds, (q.1 : Int) = (p.1 : Int) + d.1 ∧ (q.2 : Int) = (p.2 : Int) + d.2

/-- 4-adjacency of two cells, via the direction list of the code. -/
def adjP (p q : Nat × Nat) : Prop := adjD directions p q

/-- A cell may be entered at step `s`: in bounds, not a Wall, and strictly
before its freeze time — exactly the neighbor admission test of
`find_shortest_safe_steps`. -/
def okT (g : List (List Char)) (ice : List (List FT)) (p : Nat × Nat) (s : Nat) : Prop :=
  p.1 < Rdim g ∧ p.2 < Cdim g ∧ gget g p.1 p.2 ≠ '#' ∧
    ltNatFT s (fget ice p.1 p.2) = true

/-- Safe paths: start at `(0,0)` (whose own cell kind and freeze time the
search never checks), move through 4-adjacent cells, and enter the cell of
step `s` only if `okT` holds at `s`. `SPath g ice p s` states that some
safe path of exactly `s` moves ends at `p`. -/
inductive SPath (g : List (List Char)) (ice : List (List FT)) : Nat × Nat → Nat → Prop where
  | nil : SPath g ice (0, 0) 0
  | cons {p q : Nat × Nat} {s : Nat} :
      SPath g ice p s → adjP p q → okT g ice q (s + 1) → SPath g ice q (s + 1)

/-- Reachable by a safe path of at most `k` moves. -/
def SReach (g : List (List Char)) (ice : List (List FT)) (k : Nat) (p : Nat × Nat) : Prop :=
  ∃ s, s ≤ k ∧ SPath g ice p s

/-- The BFS frontier of level `k`: cells whose minimal safe-path length is
exactly `k`. -/
def Fro (g : List (List Char)) (ice : List (List FT)) : Nat → Nat × Nat → Prop
  | 0 => fun p => p = (0, 0)
  | k + 1 => fun p => SReach g ice (k + 1) p ∧ ¬ SReach g ice k p

/-- Paths that ignore freeze times entirely: 4-adjacent, in bounds, not a
Wall and not a HazardSeed cell (seeds freeze at time 0 and can never be
entered). Used to state the amended termination claim C8. -/
inductive AvoidPath (g : List (List Char)) : Nat × Nat → Nat → Prop where
  | nil : AvoidPath g (0, 0) 0
  | cons {p q : Nat × Nat} {s : Nat} :
      AvoidPath g p s → adjP p q →
      q.1 < Rdim g → q.2 < Cdim g → gget g q.1 q.2 ≠ '#' → gget g q.1 q.2 ≠ 'I' →
      AvoidPath g q (s + 1)

/-- Matrix of `R` rows that all have length `C`. -/
def Vdims {α : Type} (m : List (List α)) (R C : Nat) : Prop :=
  m.length = R ∧ ∀ row ∈ m, row.length = C

instance {α : Type} (m : List (List α)) (R C : Nat) : Decidable (Vdims m R C) := by
  unfold Vdims
  infer_instance

/-- Number of `false` entries of a visited matrix (the BFS termination
measure counts these). -/
def countFalse (v : List (List Bool)) : Nat :=
  (v.map (fun row => row.count false)).sum

/-- Number of HazardSeed cells of a grid. -/
def seedCount (g : List (List Char)) : Nat :=
  (g.map (fun row => row.count 'I')).sum

/-- An all-infinity freeze-time matrix of the base grid's dimensions (the
C4 scenario: no seeds placed at all). -/
def infMatrix : List (List FT) := List.replicate 10 (List.replicate 10 none)

/-- A 1×17 all-open corridor: the C8 counterexample grid. The exit is 16
moves away, which is not below the default step budget of 15. -/
def corridorGrid : List (List Char) := [List.replicate 17 '.']

/-- A fixed trivial entropy stream (used to exhibit counterexamples that
hold for every stream). -/
def constStream : Nat → List (Int × Int) × Nat := fun _ => (directions, 0)

/-! ### Invariants of the hazard spread (`compute_ice_times`) -/

/-- Matrix part of the spread invariant: HazardSeed cells carry freeze
time 0, every other cell carries `inf` or a finite time of at least
`interval`. -/
def IceInv (g : List (List Char)) (R C interval : Nat)
    (ice : List (List FT)) : Prop :=
  ∀ r c, r < R → c < C →
    (gget g r c = 'I' → fget ice r c = some 0) ∧
    (gget g r c ≠ 'I' →
      fget ice r c = none ∨ ∃ t, fget ice r c = some t ∧ interval ≤ t)

/-- Every finite freeze time is a multiple of the propagation interval. -/
def MulInv (interval : Nat) (ice : List (List FT)) : Prop :=
  ∀ r c t, fget ice r c = some t → ∃ k, t = k * interval

/-! ### The queue invariant of the breadth-first search -/

/-- Some entry of the queue sits at cell `p`. -/
def cellIn (l : List (Nat × Nat × Nat)) (p : Nat × Nat) : Prop :=
  ∃ e ∈ l, e.1 = p.1 ∧ e.2.1 = p.2

/-- Mid-level queue invariant of `bfsAux`: the queue is `A ++ B` where `A`
holds the still-unprocessed frontier entries of level `k` (the cells of
`done` are the already-processed ones) and `B` the level-`k+1` entries
discovered so far; the visited matrix holds exactly the cells reachable
within `k` steps plus the cells of `B`. -/
def MidInv (g : List (List Char)) (ice : List (List FT)) (k : Nat)
    (A B : List (Nat × Nat × Nat)) (v : List (List Bool))
    (done : List (Nat × Nat)) : Prop :=
  (∀ e ∈ A, e.2.2 = k ∧ Fro g ice k (e.1, e.2.1)) ∧
  (∀ e ∈ B, e.2.2 = k + 1) ∧
  (∀ p : Nat × Nat, cellIn B p ↔
    (¬ SReach g ice k p ∧ ∃ a ∈ done, adjP a p ∧ okT g ice p (k + 1))) ∧
  (∀ a ∈ done, Fro g ice k a) ∧
  (∀ a : Nat × Nat, Fro g ice k a → a ∈ done ∨ cellIn A a) ∧
  (∀ p : Nat × Nat, vget v p.1 p.2 = true ↔ (SReach g ice k p ∨ cellIn B p)) ∧
  Vdims v (Rdim g) (Cdim g)

/-- A draw stream whose shuffles put the off-grid "up" direction first, so
the attempted prefix is up/left/right: the hazard stays in row 0 and the
calibration accepts its first interval (cheap to evaluate). -/
def upStream : Nat → List (Int × Int) × Nat :=
  fun _ => ([(-1, 0), (0, -1), (0, 1), (1, 0)], 0)

/-! ### Basic matrix lemmas -/

theorem getD_set_row_self {α : Type} (m : List (List α)) (r : Nat)
    (row : List α) (hr : r < m.length) : (m.set r row).getD r [] = row := by
  rw [List.getD_eq_getElem?_getD, List.getElem?_set_self hr]
  rfl

theorem getD_set_row_ne {α : Type} (m : List (List α)) (r r' : Nat)
    (row : List α) (hr : r ≠ r') : (m.set r row).getD r' [] = m.getD r' [] := by
  rw [List.getD_eq_getElem?_getD, List.getElem?_set_ne hr,
    ← List.getD_eq_getElem?_getD]

theorem mgetD_mset_self {α : Type} (m : List (List α)) (r c : Nat) (a d : α)
    (hr : r < m.length) (hc : c < (m.getD r []).length) :
    mgetD (mset m r c a) r c d = a := by
  unfold mgetD mset
  rw [getD_set_row_self m r _ hr, List.getD_eq_getElem?_getD,
    List.getElem?_set_self (by simpa using hc)]
  rfl

theorem mgetD_mset_ne {α : Type} (m : List (List α)) (r c r' c' : Nat) (a d : α)
    (h : (r, c) ≠ (r', c')) :
    mgetD (mset m r c a) r' c' d = mgetD m r' c' d := by
  unfold mgetD mset
  by_cases hr : r = r'
  · subst hr
    have hc : c ≠ c' := by intro hh; exact h (by rw [hh])
    by_cases hlen : r < m.length
    · rw [getD_set_row_self m r _ hlen, List.getD_eq_getElem?_getD,
        List.getElem?_set_ne hc, ← List.getD_eq_getElem?_getD]
    · rw [List.set_eq_of_length_le (by omega)]
  · rw [getD_set_row_ne m r r' _ hr]

theorem Vdims_getD {α : Type} {m : List (List α)} {R C : Nat} (h : Vdims m R C)
    {r : Nat} (hr : r < R) : (m.getD r []).length = C := by
  rcases h with ⟨hlen, hrow⟩
  rw [List.getD_eq_getElem?_getD, List.getElem?_eq_getElem (by omega)]
  exact hrow _ (List.getElem_mem _)

theorem Vdims_mset {α : Type} {m : List (List α)} {R C : Nat} (h : Vdims m R C)
    (r c : Nat) (a : α) : Vdims (mset m r c a) R C := by
  by_cases hlen : r < m.length
  · rcases h with ⟨hR, hrow⟩
    refine ⟨by simpa [mset] using hR, ?_⟩
    intro row hmem
    rcases List.mem_or_eq_of_mem_set hmem with hmem | rfl
    · exact hrow _ hmem
    · rw [List.length_set]
      rw [List.getD_eq_getElem?_getD, List.getElem?_eq_getElem hlen]
      exact hrow _ (List.getElem_mem _)
  · unfold mset
    rw [List.set_eq_of_length_le (by omega)]
    exact h

theorem Vdims_replicate {α : Type} (R C : Nat) (a : α) :
    Vdims (List.replicate R (List.replicate C a)) R C := by
  constructor
  · simp
  · intro row hmem
    rw [List.eq_of_mem_replicate hmem]
    simp

theorem mgetD_out {α : Type} {m : List (List α)} {R C : Nat} (h : Vdims m R C)
    (r c : Nat) (d : α) (hout : R ≤ r ∨ C ≤ c) : mgetD m r c d = d := by
  by_cases hr : r < R
  · have hc : C ≤ c := by
      rcases hout with hout | hout
      · omega
      · exact hout
    have hl : (m.getD r []).length = C := Vdims_getD h hr
    unfold mgetD
    rw [List.getD_eq_getElem?_getD (l := m.getD r []),
      List.getElem?_eq_none (by omega)]
    rfl
  · have hR : m.length = R := h.1
    have hrow : m.getD r [] = [] := by
      rw [List.getD_eq_getElem?_getD, List.getElem?_eq_none (by omega)]
      rfl
    unfold mgetD
    rw [hrow]
    rfl

theorem sum_map_set {α : Type} (f : α → Nat) :
    ∀ (l : List α) (i : Nat) (a : α), i < l.length →
      ((l.set i a).map f).sum + f (l.getD i a) = (l.map f).sum + f a := by
  intro l
  induction l with
  | nil => intro i a h; simp at h
  | cons x xs ih =>
    intro i a h
    cases i with
    | zero => simp [Nat.add_comm, Nat.add_left_comm]
    | succ i =>
      have hi : i < xs.length := by simpa using h
      simp only [List.set, List.map_cons, List.sum_cons, List.getD_cons_succ]
      have := ih i a hi
      omega

theorem countFalse_mset (v : List (List Bool)) {R C : Nat} (h : Vdims v R C)
    (r c : Nat) (hr : r < R) (hc : c < C) (hfalse : vget v r c = false) :
    countFalse (mset v r c true) + 1 = countFalse v := by
  have hrm : r < v.length := by rw [h.1]; exact hr
  have hcm : c < (v.getD r []).length := by rw [Vdims_getD h hr]; exact hc
  have hrow : (v.getD r [])[c] = false := by
    have : (v.getD r []).getD c false = false := hfalse
    rwa [List.getD_eq_getElem?_getD, List.getElem?_eq_getElem hcm,
      Option.getD_some] at this
  have hcount : ((v.getD r []).set c true).count false + 1 =
      (v.getD r []).count false := by
    rw [List.count_set true false _ c hcm]
    have hmem : (false : Bool) ∈ v.getD r [] := hrow ▸ List.getElem_mem hcm
    have hpos : 0 < (v.getD r []).count false := List.count_pos_iff.mpr hmem
    have hbt : ((true : Bool) == false) = false := rfl
    simp only [hrow, beq_self_eq_true, if_true, hbt, Bool.false_eq_true,
      if_false]
    omega
  have hsum : (((v.set r ((v.getD r []).set c true)).map
        (fun row => row.count false)).sum +
      (v.getD r ((v.getD r []).set c true)).count false =
      (v.map (fun row => row.count false)).sum +
      ((v.getD r []).set c true).count false) :=
    sum_map_set (fun row => row.count false) v r
      ((v.getD r []).set c true) hrm
  have hget : v.getD r ((v.getD r []).set c true) = v.getD r [] := by
    rw [List.getD_eq_getElem?_getD, List.getElem?_eq_getElem hrm,
      Option.getD_some, List.getD_eq_getElem?_getD,
      List.getElem?_eq_getElem hrm, Option.getD_some]
  rw [hget] at hsum
  unfold countFalse mset
  omega

theorem mem_allIndices {R C : Nat} {p : Nat × Nat} :
    p ∈ allIndices R C ↔ p.1 < R ∧ p.2 < C := by
  rcases p with ⟨r, c⟩
  simp only [allIndices, List.mem_flatten, List.mem_map, List.mem_range]
  constructor
  · rintro ⟨l, ⟨r', hr', rfl⟩, hmem⟩
    rcases List.mem_map.mp hmem with ⟨c', hc', hpc⟩
    rcases Prod.mk.injEq .. ▸ hpc with ⟨h1, h2⟩
    cases hpc
    exact ⟨hr', by simpa using hc'⟩
  · rintro ⟨hr, hc⟩
    exact ⟨(List.range C).map (fun c => (r, c)), ⟨r, hr, rfl⟩,
      List.mem_map.mpr ⟨c, List.mem_range.mpr hc, rfl⟩⟩

theorem mgetD_replicate {α : Type} (R C r c : Nat) (a d : α)
    (hr : r < R) (hc : c < C) :
    mgetD (List.replicate R (List.replicate C a)) r c d = a := by
  have hrow : (List.replicate R (List.replicate C a)).getD r [] =
      List.replicate C a := by
    rw [List.getD_eq_getElem?_getD, List.getElem?_replicate, if_pos hr]
    rfl
  unfold mgetD
  rw [hrow, List.getD_eq_getElem?_getD, List.getElem?_replicate, if_pos hc]
  rfl

theorem iceExpand_pres (g : List (List Char)) (R C interval r c t : Nat)
    (hmul : ∃ k, t = k * interval) :
    ∀ (ds : List (Int × Int)) (ice : List (List FT))
      (q : List (Nat × Nat × Nat)),
      Vdims ice R C → IceInv g R C interval ice → MulInv interval ice →
      Vdims (iceExpand g R C interval r c t ds (ice, q)).1 R C ∧
      IceInv g R C interval (iceExpand g R C interval r c t ds (ice, q)).1 ∧
      MulInv interval (iceExpand g R C interval r c t ds (ice, q)).1 ∧
      ∀ e ∈ (iceExpand g R C interval r c t ds (ice, q)).2,
        e ∈ q ∨ e.2.2 = t + interval := by
  intro ds
  induction ds with
  | nil =>
    intro ice q hv h1 h2
    exact ⟨hv, h1, h2, fun e he => Or.inl he⟩
  | cons d ds ih =>
    intro ice q hv h1 h2
    simp only [iceExpand]
    split
    case isTrue h =>
      obtain ⟨hin, hwall, hlt⟩ := h
      have hrb : ((r : Int) + d.1).toNat < R := by
        rcases hin with ⟨h1', h2', _, _⟩
        omega
      have hcb : ((c : Int) + d.2).toNat < C := by
        rcases hin with ⟨_, _, h3', h4'⟩
        omega
      have hnotseed : gget g ((r : Int) + d.1).toNat ((c : Int) + d.2).toNat ≠ 'I' := by
        intro hseed
        have h0 := (h1 _ _ hrb hcb).1 hseed
        rw [h0] at hlt
        simp [ltNatFT] at hlt
      have hv2 : Vdims (mset ice ((r : Int) + d.1).toNat ((c : Int) + d.2).toNat
          (some (t + interval))) R C := Vdims_mset hv _ _ _
      have h1b : IceInv g R C interval
          (mset ice ((r : Int) + d.1).toNat ((c : Int) + d.2).toNat
            (some (t + interval))) := by
        intro r' c' hr' hc'
        by_cases heq : (((r : Int) + d.1).toNat, ((c : Int) + d.2).toNat) = (r', c')
        · obtain ⟨he1, he2⟩ := Prod.mk.injEq .. ▸ heq
          subst he1
          subst he2
          have hself : fget (mset ice ((r : Int) + d.1).toNat
              ((c : Int) + d.2).toNat (some (t + interval)))
              ((r : Int) + d.1).toNat ((c : Int) + d.2).toNat =
              some (t + interval) := by
            apply mgetD_mset_self
            · rw [hv.1]; exact hrb
            · rw [Vdims_getD hv hrb]; exact hcb
          constructor
          · intro hseed
            exact absurd hseed hnotseed
          · intro _
            exact Or.inr ⟨t + interval, hself, Nat.le_add_left _ _⟩
        · have hne : fget (mset ice ((r : Int) + d.1).toNat
              ((c : Int) + d.2).toNat (some (t + interval))) r' c' =
              fget ice r' c' := mgetD_mset_ne _ _ _ _ _ _ _ heq
          rw [hne]
          exact h1 r' c' hr' hc'
      have h2b : MulInv interval
          (mset ice ((r : Int) + d.1).toNat ((c : Int) + d.2).toNat
            (some (t + interval))) := by
        intro r' c' t' ht'
        by_cases heq : (((r : Int) + d.1).toNat, ((c : Int) + d.2).toNat) = (r', c')
        · obtain ⟨he1, he2⟩ := Prod.mk.injEq .. ▸ heq
          subst he1
          subst he2
          have hself : fget (mset ice ((r : Int) + d.1).toNat
              ((c : Int) + d.2).toNat (some (t + interval)))
              ((r : Int) + d.1).toNat ((c : Int) + d.2).toNat =
              some (t + interval) := by
            apply mgetD_mset_self
            · rw [hv.1]; exact hrb
            · rw [Vdims_getD hv hrb]; exact hcb
          rw [hself] at ht'
          have ht2 : t + interval = t' := Option.some.inj ht'
          obtain ⟨k, hk⟩ := hmul
          refine ⟨k + 1, ?_⟩
          rw [Nat.succ_mul]
          omega
        · have hne : fget (mset ice ((r : Int) + d.1).toNat
              ((c : Int) + d.2).toNat (some (t + interval))) r' c' =
              fget ice r' c' := mgetD_mset_ne _ _ _ _ _ _ _ heq
          rw [hne] at ht'
          exact h2 r' c' t' ht'
      obtain ⟨ha, hb, hc, hd⟩ := ih _ _ hv2 h1b h2b
      refine ⟨ha, hb, hc, ?_⟩
      intro e he
      rcases hd e he with he2 | he2
      · rcases List.mem_append.mp he2 with he3 | he3
        · exact Or.inl he3
        · simp only [List.mem_singleton] at he3
          subst he3
          exact Or.inr rfl
      · exact Or.inr he2
    case isFalse h =>
      exact ih ice q hv h1 h2

theorem computeIceAux_inv (g : List (List Char)) (R C interval : Nat)
    (ρ : Nat → List (Int × Int) × Nat) :
    ∀ (fuel n : Nat) (ice : List (List FT)) (q : List (Nat × Nat × Nat)),
      Vdims ice R C → IceInv g R C interval ice → MulInv interval ice →
      (∀ e ∈ q, ∃ k, e.2.2 = k * interval) →
      Vdims (computeIceAux g R C interval ρ n fuel ice q) R C ∧
      IceInv g R C interval (computeIceAux g R C interval ρ n fuel ice q) ∧
      MulInv interval (computeIceAux g R C interval ρ n fuel ice q) := by
  intro fuel
  induction fuel with
  | zero =>
    intro n ice q hv h1 h2 _
    exact ⟨hv, h1, h2⟩
  | succ fuel ih =>
    intro n ice q hv h1 h2 hq
    cases q with
    | nil => exact ⟨hv, h1, h2⟩
    | cons e q =>
      obtain ⟨r, c, t⟩ := e
      have hmul : ∃ k, t = k * interval := hq (r, c, t) (List.mem_cons_self _ _)
      obtain ⟨ha, hb, hc, hd⟩ := iceExpand_pres g R C interval r c t hmul
        (attemptedDirs (ρ n)) ice q hv h1 h2
      simp only [computeIceAux]
      apply ih (n + 1) _ _ ha hb hc
      intro e he
      rcases hd e he with he2 | he2
      · exact hq e (List.mem_cons_of_mem _ he2)
      · obtain ⟨k, hk⟩ := hmul
        refine ⟨k + 1, ?_⟩
        rw [Nat.succ_mul]
        omega

theorem iceInitFold (g : List (List Char)) (R C : Nat) :
    ∀ (idxs : List (Nat × Nat)) (m : List (List FT))
      (q : List (Nat × Nat × Nat)),
      Vdims m R C → (∀ p ∈ idxs, p.1 < R ∧ p.2 < C) →
      Vdims (idxs.foldl
        (fun s p =>
          if gget g p.1 p.2 = 'I' then
            (mset s.1 p.1 p.2 (some 0), s.2 ++ [(p.1, p.2, 0)])
          else s) (m, q)).1 R C ∧
      (∀ r c, r < R → c < C →
        fget (idxs.foldl
          (fun s p =>
            if gget g p.1 p.2 = 'I' then
              (mset s.1 p.1 p.2 (some 0), s.2 ++ [(p.1, p.2, 0)])
            else s) (m, q)).1 r c =
          if (r, c) ∈ idxs ∧ gget g r c = 'I' then some 0 else fget m r c) ∧
      (∀ e ∈ (idxs.foldl
          (fun s p =>
            if gget g p.1 p.2 = 'I' then
              (mset s.1 p.1 p.2 (some 0), s.2 ++ [(p.1, p.2, 0)])
            else s) (m, q)).2, e ∈ q ∨ e.2.2 = 0) := by
  intro idxs
  induction idxs with
  | nil =>
    intro m q hv _
    refine ⟨hv, ?_, fun e he => Or.inl he⟩
    intro r c _ _
    simp
  | cons p idxs ih =>
    intro m q hv hb
    obtain ⟨hp1, hp2⟩ := hb p (List.mem_cons_self _ _)
    have hbrest : ∀ p' ∈ idxs, p'.1 < R ∧ p'.2 < C :=
      fun p' hp' => hb p' (List.mem_cons_of_mem _ hp')
    by_cases hseed : gget g p.1 p.2 = 'I'
    · simp only [List.foldl_cons, if_pos hseed]
      obtain ⟨ha, hchar, hq⟩ := ih (mset m p.1 p.2 (some 0))
        (q ++ [(p.1, p.2, 0)]) (Vdims_mset hv _ _ _) hbrest
      refine ⟨ha, ?_, ?_⟩
      · intro r c hr hc
        rw [hchar r c hr hc]
        by_cases hmem : (r, c) ∈ idxs ∧ gget g r c = 'I'
        · rw [if_pos hmem, if_pos ⟨List.mem_cons_of_mem _ hmem.1, hmem.2⟩]
        · rw [if_neg hmem]
          by_cases hpe : p = (r, c)
          · have hpa : p.1 = r := by rw [hpe]
            have hpb : p.2 = c := by rw [hpe]
            have hseed2 : gget g r c = 'I' := by
              rw [hpa, hpb] at hseed
              exact hseed
            rw [if_pos ⟨by rw [hpe]; exact List.mem_cons_self _ _, hseed2⟩]
            rw [← hpa, ← hpb]
            apply mgetD_mset_self
            · rw [hv.1]; exact hp1
            · rw [Vdims_getD hv hp1]; exact hp2
          · have hne : fget (mset m p.1 p.2 (some 0)) r c = fget m r c := by
              apply mgetD_mset_ne
              intro hcontra
              exact hpe (by
                rcases p with ⟨a, b⟩
                simpa using hcontra)
            rw [hne]
            rw [if_neg ?_]
            intro hcontra
            rcases hcontra with ⟨hmem2, hseed2⟩
            rcases List.mem_cons.mp hmem2 with hcase | hcase
            · exact hpe hcase.symm
            · exact hmem ⟨hcase, hseed2⟩
      · intro e he
        rcases hq e he with he2 | he2
        · rcases List.mem_append.mp he2 with he3 | he3
          · exact Or.inl he3
          · simp only [List.mem_singleton] at he3
            subst he3
            exact Or.inr rfl
        · exact Or.inr he2
    · simp only [List.foldl_cons, if_neg hseed]
      obtain ⟨ha, hchar, hq⟩ := ih m q hv hbrest
      refine ⟨ha, ?_, hq⟩
      intro r c hr hc
      rw [hchar r c hr hc]
      by_cases hmem : (r, c) ∈ idxs ∧ gget g r c = 'I'
      · rw [if_pos hmem, if_pos ⟨List.mem_cons_of_mem _ hmem.1, hmem.2⟩]
      · rw [if_neg hmem, if_neg ?_]
        intro hcontra
        rcases hcontra with ⟨hmem2, hseed2⟩
        rcases List.mem_cons.mp hmem2 with hcase | hcase
        · have hpa : p.1 = r := by rw [← hcase]
          have hpb : p.2 = c := by rw [← hcase]
          exact hseed (by rw [hpa, hpb]; exact hseed2)
        · exact hmem ⟨hcase, hseed2⟩

theorem iceInit_spec (g : List (List Char)) (R C : Nat) :
    Vdims (iceInit g R C).1 R C ∧
    (∀ r c, r < R → c < C →
      fget (iceInit g R C).1 r c =
        if gget g r c = 'I' then some 0 else none) ∧
    (∀ e ∈ (iceInit g R C).2, e.2.2 = 0) := by
  have hb : ∀ p ∈ allIndices R C, p.1 < R ∧ p.2 < C :=
    fun p hp => mem_allIndices.mp hp
  obtain ⟨ha, hchar, hq⟩ := iceInitFold g R C (allIndices R C)
    (List.replicate R (List.replicate C (none : FT))) []
    (Vdims_replicate R C none) hb
  refine ⟨ha, ?_, ?_⟩
  · intro r c hr hc
    have hval := hchar r c hr hc
    unfold iceInit
    rw [hval]
    have hmem : (r, c) ∈ allIndices R C := mem_allIndices.mpr ⟨hr, hc⟩
    by_cases hseed : gget g r c = 'I'
    · rw [if_pos ⟨hmem, hseed⟩, if_pos hseed]
    · rw [if_neg (fun hcon => hseed hcon.2), if_neg hseed]
      exact mgetD_replicate R C r c none none hr hc
  · intro e he
    rcases hq e he with he2 | he2
    · exact absurd he2 (List.not_mem_nil e)
    · exact he2

theorem compute_ice_inv (g : List (List Char)) (interval : Nat)
    (ρ : Nat → List (Int × Int) × Nat) :
    Vdims (compute_ice_times g interval ρ) (Rdim g) (Cdim g) ∧
    IceInv g (Rdim g) (Cdim g) interval (compute_ice_times g interval ρ) ∧
    MulInv interval (compute_ice_times g interval ρ) := by
  obtain ⟨ha, hchar, hq⟩ := iceInit_spec g (Rdim g) (Cdim g)
  have h1 : IceInv g (Rdim g) (Cdim g) interval (iceInit g (Rdim g) (Cdim g)).1 := by
    intro r c hr hc
    constructor
    · intro hseed
      rw [hchar r c hr hc, if_pos hseed]
    · intro hseed
      rw [hchar r c hr hc, if_neg hseed]
      exact Or.inl rfl
  have h2 : MulInv interval (iceInit g (Rdim g) (Cdim g)).1 := by
    intro r c t ht
    by_cases hr : r < Rdim g
    · by_cases hc : c < Cdim g
      · rw [hchar r c hr hc] at ht
        by_cases hseed : gget g r c = 'I'
        · rw [if_pos hseed] at ht
          have h0 : (0 : Nat) = t := Option.some.inj ht
          exact ⟨0, by omega⟩
        · rw [if_neg hseed] at ht
          exact absurd ht (by simp)
      · rw [show fget (iceInit g (Rdim g) (Cdim g)).1 r c = none from
          mgetD_out ha r c none (Or.inr (by omega))] at ht
        exact absurd ht (by simp)
    · rw [show fget (iceInit g (Rdim g) (Cdim g)).1 r c = none from
        mgetD_out ha r c none (Or.inl (by omega))] at ht
      exact absurd ht (by simp)
  have hqm : ∀ e ∈ (iceInit g (Rdim g) (Cdim g)).2, ∃ k, e.2.2 = k * interval :=
    fun e he => ⟨0, by rw [hq e he]; omega⟩
  exact computeIceAux_inv g (Rdim g) (Cdim g) interval ρ _ 0 _ _ ha h1 h2 hqm

theorem leFTNat_eq_not_ltNatFT (v : FT) (n : Nat) :
    leFTNat v n = !ltNatFT n v := by
  cases v with
  | none => rfl
  | some t =>
    simp only [leFTNat, ltNatFT]
    by_cases h : n < t
    · have h2 : ¬ t ≤ n := by omega
      simp [h, h2]
    · have h2 : t ≤ n := by omega
      simp [h, h2]

/-- A grid with no HazardSeed cells yields the all-infinity matrix for
every interval and entropy stream: the expansion queue starts empty. This
holds definitionally for any concrete seedless grid. -/
theorem compute_ice_base_noseed (interval : Nat)
    (ρ : Nat → List (Int × Int) × Nat) :
    compute_ice_times base_grid interval ρ = infMatrix := rfl

/-- The corridor grid likewise has no seeds, so its freeze-time matrix is
all-infinity for every interval and entropy stream. -/
theorem compute_ice_corridor_noseed (interval : Nat)
    (ρ : Nat → List (Int × Int) × Nat) :
    compute_ice_times corridorGrid interval ρ =
      [List.replicate 17 (none : FT)] := rfl

/-! ### Claim theorems: spread invariants, expansion width, calibration -/

/-- C3: for every grid, every spread interval ≥ 1 and every sequence of
random draws, the matrix returned by `compute_ice_times` assigns freeze
time 0 to exactly the HazardSeed cells, and assigns every other cell either
infinity (`none`, the initial value every never-relaxed cell keeps) or a
finite value of at least `spread_interval`, hence at least 1. -/
theorem claim_C3_freeze_time_validity (g : List (List Char)) (interval : Nat)
    (ρ : Nat → List (Int × Int) × Nat) (hi : 1 ≤ interval)
    (r c : Nat) (hr : r < Rdim g) (hc : c < Cdim g) :
    (fget (compute_ice_times g interval ρ) r c = some 0 ↔ gget g r c = 'I') ∧
    (gget g r c ≠ 'I' →
      fget (compute_ice_times g interval ρ) r c = none ∨
      ∃ t, fget (compute_ice_times g interval ρ) r c = some t ∧
        interval ≤ t ∧ 1 ≤ t) := by
  obtain ⟨hv, h1, h2⟩ := compute_ice_inv g interval ρ
  obtain ⟨hs, hn⟩ := h1 r c hr hc
  constructor
  · constructor
    · intro h0
      by_contra hns
      rcases hn hns with hnone | ⟨t, ht, hle⟩
      · rw [h0] at hnone
        cases hnone
      · rw [h0] at ht
        have : (0 : Nat) = t := Option.some.inj ht
        omega
    · exact hs
  · intro hns
    rcases hn hns with hnone | ⟨t, ht, hle⟩
    · exact Or.inl hnone
    · exact Or.inr ⟨t, ht, hle, by omega⟩

/-- Witness for C3 at a concrete grid, interval and stream. -/
theorem claim_C3_witness :
    fget (compute_ice_times [['I', '.']] 1 constStream) 0 0 = some 0 :=
  (claim_C3_freeze_time_validity [['I', '.']] 1 constStream (by decide)
    0 0 (by decide) (by decide)).1.mpr (by decide)

/-- C9: every finite entry of the matrix returned by `compute_ice_times` is
a multiple of the spread interval (seeds carry 0, each relaxation adds
exactly the interval to a stored time). -/
theorem claim_C9_interval_multiples (g : List (List Char)) (interval : Nat)
    (ρ : Nat → List (Int × Int) × Nat) (hi : 1 ≤ interval) (r c t : Nat)
    (ht : fget (compute_ice_times g interval ρ) r c = some t) :
    ∃ k, t = k * interval :=
  (compute_ice_inv g interval ρ).2.2 r c t ht

/-- Witness for C9 at a concrete grid, interval and stream. -/
theorem claim_C9_witness : ∃ k, 0 = k * 2 :=
  claim_C9_interval_multiples [['I']] 2 constStream (by decide) 0 0 0
    (by decide)

/-- C7: every dequeued expansion step of `compute_ice_times` attempts the
prefix `dirs[:randint(3,3)]` of the shuffled direction list; since
`randint(3, 3)` always draws 3, this is exactly 3 of the 4 shuffled
candidate directions: a strict part of the shuffle, never fewer than 3 and
never all 4. -/
theorem claim_C7_three_of_four (shuffled : List (Int × Int)) (dr : Nat)
    (hperm : shuffled.Perm directions) :
    (attemptedDirs (shuffled, dr)).length = 3 ∧
    (attemptedDirs (shuffled, dr)).Sublist shuffled ∧
    attemptedDirs (shuffled, dr) ≠ shuffled := by
  have hlen : shuffled.length = 4 := by
    rw [hperm.length_eq]
    rfl
  have hr : randint 3 3 dr = 3 := by
    unfold randint
    omega
  have htake : (attemptedDirs (shuffled, dr)).length = 3 := by
    unfold attemptedDirs
    rw [hr, List.length_take, hlen]
    omega
  refine ⟨htake, List.take_sublist _ _, ?_⟩
  intro hcon
  rw [hcon, hlen] at htake
  cases htake

/-- Witness for C7 at a concrete shuffle and draw. -/
theorem claim_C7_witness : (attemptedDirs (directions, 0)).length = 3 :=
  (claim_C7_three_of_four directions 0 (List.Perm.refl _)).1

/-- C5: for every freeze-time matrix, every in-bounds non-Wall target and
every step count, the move handler declares game over exactly when
`steps_after_move >= freeze_time[target]`, and otherwise lets the player
occupy the target (recording a win exactly on the exit cell); the test is
the negation of the strict comparison `ltNatFT` used by the reachability
search, as the third conjunct records. -/
theorem claim_C5_move_check (g : List (List Char)) (ice : List (List FT))
    (pos_r pos_c current_steps : Nat) (d : Int × Int)
    (hin : inB (Rdim g) (Cdim g) ((pos_r : Int) + d.1) ((pos_c : Int) + d.2))
    (hwall : gget g ((pos_r : Int) + d.1).toNat ((pos_c : Int) + d.2).toNat ≠ '#') :
    (move_result g ice pos_r pos_c current_steps d = MoveResult.frozen ↔
      leFTNat (fget ice ((pos_r : Int) + d.1).toNat ((pos_c : Int) + d.2).toNat)
        (current_steps + 1) = true) ∧
    (move_result g ice pos_r pos_c current_steps d =
        MoveResult.moved ((pos_r : Int) + d.1).toNat ((pos_c : Int) + d.2).toNat
          (current_steps + 1)
          (decide ((((pos_r : Int) + d.1).toNat, ((pos_c : Int) + d.2).toNat) =
            (0, Cdim g - 1))) ↔
      ltNatFT (current_steps + 1)
        (fget ice ((pos_r : Int) + d.1).toNat ((pos_c : Int) + d.2).toNat) = true) ∧
    leFTNat (fget ice ((pos_r : Int) + d.1).toNat ((pos_c : Int) + d.2).toNat)
        (current_steps + 1) =
      !ltNatFT (current_steps + 1)
        (fget ice ((pos_r : Int) + d.1).toNat ((pos_c : Int) + d.2).toNat) := by
  unfold move_result
  rw [if_pos ⟨hin, hwall⟩]
  by_cases hfr : leFTNat
      (fget ice ((pos_r : Int) + d.1).toNat ((pos_c : Int) + d.2).toNat)
      (current_steps + 1) = true
  · rw [if_pos hfr]
    refine ⟨by simp [hfr], ?_, leFTNat_eq_not_ltNatFT _ _⟩
    have hlt : ltNatFT (current_steps + 1)
        (fget ice ((pos_r : Int) + d.1).toNat ((pos_c : Int) + d.2).toNat) = false := by
      have := leFTNat_eq_not_ltNatFT
        (fget ice ((pos_r : Int) + d.1).toNat ((pos_c : Int) + d.2).toNat)
        (current_steps + 1)
      rw [hfr] at this
      cases hh : ltNatFT (current_steps + 1)
          (fget ice ((pos_r : Int) + d.1).toNat ((pos_c : Int) + d.2).toNat)
      · rfl
      · rw [hh] at this
        cases this
    simp [hlt]
  · rw [if_neg hfr]
    have hlt : ltNatFT (current_steps + 1)
        (fget ice ((pos_r : Int) + d.1).toNat ((pos_c : Int) + d.2).toNat) = true := by
      have := leFTNat_eq_not_ltNatFT
        (fget ice ((pos_r : Int) + d.1).toNat ((pos_c : Int) + d.2).toNat)
        (current_steps + 1)
      cases hh : ltNatFT (current_steps + 1)
          (fget ice ((pos_r : Int) + d.1).toNat ((pos_c : Int) + d.2).toNat)
      · rw [hh] at this
        exact absurd this hfr
      · rfl
    refine ⟨by simp [hfr], by simp [hlt], leFTNat_eq_not_ltNatFT _ _⟩

/-- Witness for C5 at a concrete state: moving right from (0,0) at step 0
into an unfrozen cell. -/
theorem claim_C5_witness :
    move_result [['.', '.']] [[none, none]] 0 0 0 (0, 1) =
      MoveResult.moved 0 1 1 true :=
  ((claim_C5_move_check [['.', '.']] [[none, none]] 0 0 0 (0, 1)
    (by decide) (by decide)).2.1).mpr (by decide)

/-- Acceptance analysis of the calibration loop: a returned pair comes from
an iteration whose reachability check succeeded strictly below the budget,
with an interval at least the starting one. -/
theorem gbiAux_accept (g : List (List Char)) (max_steps : Nat)
    (σ : Nat → Nat → List (Int × Int) × Nat) :
    ∀ (fuel interval k : Nat) (ice : List (List FT)) (itv : Nat),
      gbiAux g max_steps σ interval k fuel = some (ice, itv) →
      ∃ s, find_shortest_safe_steps g ice = some s ∧ s < max_steps ∧
        interval ≤ itv ∧ ∃ j, ice = compute_ice_times g itv (σ j) := by
  intro fuel
  induction fuel with
  | zero =>
    intro interval k ice itv h
    cases h
  | succ fuel ih =>
    intro interval k ice itv h
    simp only [gbiAux] at h
    cases hfs : find_shortest_safe_steps g (compute_ice_times g interval (σ k)) with
    | none =>
      simp only [hfs] at h
      obtain ⟨s, h1, h2, h3, h4⟩ := ih (interval + 1) (k + 1) ice itv h
      exact ⟨s, h1, h2, by omega, h4⟩
    | some s =>
      simp only [hfs] at h
      by_cases hlt : s < max_steps
      · rw [if_pos hlt] at h
        obtain ⟨hice, hitv⟩ := Prod.mk.injEq .. ▸ Option.some.inj h
        subst hice
        subst hitv
        exact ⟨s, hfs, hlt, Nat.le_refl _, k, rfl⟩
      · rw [if_neg hlt] at h
        obtain ⟨s2, h1, h2, h3, h4⟩ := ih (interval + 1) (k + 1) ice itv h
        exact ⟨s2, h1, h2, by omega, h4⟩

/-- C1: for every grid and step budget ≥ 1, if `generate_balanced_ice`
returns a pair, then `find_shortest_safe_steps` on the returned matrix is a
finite step count strictly below the budget. -/
theorem claim_C1_calibration_postcondition (g : List (List Char))
    (max_steps : Nat) (σ : Nat → Nat → List (Int × Int) × Nat) (fuel : Nat)
    (ice : List (List FT)) (itv : Nat) (hms : 1 ≤ max_steps)
    (h : generate_balanced_ice g max_steps σ fuel = some (ice, itv)) :
    ∃ s, find_shortest_safe_steps g ice = some s ∧ s < max_steps := by
  obtain ⟨s, h1, h2, _, _⟩ := gbiAux_accept g max_steps σ fuel 2 0 ice itv h
  exact ⟨s, h1, h2⟩

/-- Witness for C1 at a concrete 1×2 grid, accepted at the first interval. -/
theorem claim_C1_witness :
    ∃ s, find_shortest_safe_steps [['.', '.']] [[none, none]] = some s ∧
      s < 15 :=
  claim_C1_calibration_postcondition [['.', '.']] 15 (fun _ => constStream) 1
    [[none, none]] 2 (by decide) (by decide)

/-- C4 counterexample: on the base grid with every freeze time infinite,
`find_shortest_safe_steps` does not return 9 — the wall at (0,8) blocks row
0 next to the exit, and the exit can only be entered from (1,9), so every
path costs at least 11 moves. -/
theorem claim_C4_counterexample :
    find_shortest_safe_steps base_grid infMatrix ≠ some 9 := by
  decide

/-- C4 amended: the scenario's true result is 11 — the Manhattan distance 9
plus a forced 2-move detour around the wall at (0,8). -/
theorem claim_C4_amended :
    find_shortest_safe_steps base_grid infMatrix = some 11 := by
  decide

/-! ### GridFactory claim C6 -/

theorem foldSeeds_gget (S : List (Nat × Nat)) :
    ∀ (g0 : List (List Char)), Vdims g0 10 10 →
      (∀ p ∈ S, p.1 < 10 ∧ p.2 < 10) → ∀ r c,
      gget (S.foldl (fun g p => mset g p.1 p.2 'I') g0) r c =
        if (r, c) ∈ S then 'I' else gget g0 r c := by
  induction S with
  | nil =>
    intro g0 _ _ r c
    simp
  | cons p S ih =>
    intro g0 hv hb r c
    obtain ⟨hp1, hp2⟩ := hb p (List.mem_cons_self _ _)
    have hbrest : ∀ p' ∈ S, p'.1 < 10 ∧ p'.2 < 10 :=
      fun p' hp' => hb p' (List.mem_cons_of_mem _ hp')
    simp only [List.foldl_cons]
    rw [ih (mset g0 p.1 p.2 'I') (Vdims_mset hv _ _ _) hbrest r c]
    by_cases hmem : (r, c) ∈ S
    · rw [if_pos hmem, if_pos (List.mem_cons_of_mem _ hmem)]
    · rw [if_neg hmem]
      by_cases hpe : p = (r, c)
      · have hpa : p.1 = r := by rw [hpe]
        have hpb : p.2 = c := by rw [hpe]
        rw [if_pos (by rw [hpe]; exact List.mem_cons_self _ _)]
        rw [← hpa, ← hpb]
        apply mgetD_mset_self
        · rw [hv.1]; exact hp1
        · rw [Vdims_getD hv hp1]; exact hp2
      · rw [if_neg ?_]
        · exact mgetD_mset_ne g0 p.1 p.2 r c 'I' '#' (by
            intro hcon
            exact hpe (by
              rcases p with ⟨a, b⟩
              simpa using hcon))
        · intro hcon
          rcases List.mem_cons.mp hcon with hcase | hcase
          · exact hpe hcase.symm
          · exact hmem hcase

theorem seedCount_mset (g : List (List Char)) {R C : Nat} (h : Vdims g R C)
    (r c : Nat) (hr : r < R) (hc : c < C) (hni : gget g r c ≠ 'I') :
    seedCount (mset g r c 'I') = seedCount g + 1 := by
  have hrm : r < g.length := by rw [h.1]; exact hr
  have hcm : c < (g.getD r []).length := by rw [Vdims_getD h hr]; exact hc
  have hrow : (g.getD r [])[c] ≠ 'I' := by
    intro hcon
    apply hni
    show (g.getD r []).getD c '#' = 'I'
    rw [List.getD_eq_getElem?_getD, List.getElem?_eq_getElem hcm,
      Option.getD_some]
    exact hcon
  have hcount : ((g.getD r []).set c 'I').count 'I' =
      (g.getD r []).count 'I' + 1 := by
    rw [List.count_set 'I' 'I' _ c hcm]
    have h1 : ((g.getD r [])[c] == 'I') = false := by
      cases hb : ((g.getD r [])[c] == 'I') with
      | false => rfl
      | true => exact absurd (eq_of_beq hb) hrow
    have h2 : (('I' : Char) == 'I') = true := by simp
    rw [h1, h2]
    simp
  have hsum : (((g.set r ((g.getD r []).set c 'I')).map
        (fun row => row.count 'I')).sum +
      (g.getD r ((g.getD r []).set c 'I')).count 'I' =
      (g.map (fun row => row.count 'I')).sum +
      ((g.getD r []).set c 'I').count 'I') :=
    sum_map_set (fun row => row.count 'I') g r ((g.getD r []).set c 'I') hrm
  have hget : g.getD r ((g.getD r []).set c 'I') = g.getD r [] := by
    rw [List.getD_eq_getElem?_getD, List.getElem?_eq_getElem hrm,
      Option.getD_some, List.getD_eq_getElem?_getD,
      List.getElem?_eq_getElem hrm, Option.getD_some]
  rw [hget] at hsum
  unfold seedCount mset
  omega

theorem foldSeeds_count (S : List (Nat × Nat)) :
    ∀ (g0 : List (List Char)), Vdims g0 10 10 →
      (∀ p ∈ S, p.1 < 10 ∧ p.2 < 10) → S.Nodup →
      (∀ p ∈ S, gget g0 p.1 p.2 ≠ 'I') →
      seedCount (S.foldl (fun g p => mset g p.1 p.2 'I') g0) =
        seedCount g0 + S.length := by
  induction S with
  | nil =>
    intro g0 _ _ _ _
    simp
  | cons p S ih =>
    intro g0 hv hb hnd hni
    obtain ⟨hp1, hp2⟩ := hb p (List.mem_cons_self _ _)
    have hbrest : ∀ p' ∈ S, p'.1 < 10 ∧ p'.2 < 10 :=
      fun p' hp' => hb p' (List.mem_cons_of_mem _ hp')
    have hnd2 := List.nodup_cons.mp hnd
    simp only [List.foldl_cons]
    rw [ih (mset g0 p.1 p.2 'I') (Vdims_mset hv _ _ _) hbrest hnd2.2 ?_]
    · rw [seedCount_mset g0 hv p.1 p.2 hp1 hp2
        (hni p (List.mem_cons_self _ _))]
      simp only [List.length_cons]
      omega
    · intro p' hp'
      have hpe : ¬ (p.1, p.2) = (p'.1, p'.2) := by
        intro hcon
        apply hnd2.1
        have h1 : p.1 = p'.1 := by
          have := Prod.mk.injEq .. ▸ hcon
          exact this.1
        have h2 : p.2 = p'.2 := by
          have := Prod.mk.injEq .. ▸ hcon
          exact this.2
        have : p = p' := Prod.ext h1 h2
        rw [this]
        exact hp'
      have heq : gget (mset g0 p.1 p.2 'I') p'.1 p'.2 = gget g0 p'.1 p'.2 :=
        mgetD_mset_ne g0 p.1 p.2 p'.1 p'.2 'I' '#' hpe
      rw [heq]
      exact hni p' (List.mem_cons_of_mem _ hp')

theorem base_grid_no_seed : ∀ r c, gget base_grid r c ≠ 'I' := by
  intro r c
  by_cases hr : r < 10
  · by_cases hc : c < 10
    · have hdec : ∀ r, r < 10 → ∀ c, c < 10 → gget base_grid r c ≠ 'I' := by
        decide
      exact hdec r hr c hc
    · rw [show gget base_grid r c = '#' from
        mgetD_out (show Vdims base_grid 10 10 by decide) r c '#'
          (Or.inr (by omega))]
      decide
  · rw [show gget base_grid r c = '#' from
      mgetD_out (show Vdims base_grid 10 10 by decide) r c '#'
        (Or.inl (by omega))]
    decide

/-- C6: for every `randint(3,5)` draw and every shuffle of the eligible
positions, the generated grid carries between 3 and 5 HazardSeed cells
(there are 47 eligible cells, so the `min` never truncates), and every seed
sits on a base-layout Open cell in the far half of the grid, distinct from
the start and the exit and outside the 3×3 corner zone. -/
theorem claim_C6_seed_placement (d : Nat) (π : List (Nat × Nat))
    (hperm : π.Perm possible_positions) :
    (3 ≤ seedCount (generate_grid d π) ∧ seedCount (generate_grid d π) ≤ 5) ∧
    ∀ r c, gget (generate_grid d π) r c = 'I' →
      gget base_grid r c = '.' ∧ Cdim base_grid / 2 ≤ c ∧
      c < Cdim base_grid ∧ r < Rdim base_grid ∧
      (r, c) ≠ (0, 0) ∧ (r, c) ≠ (0, Cdim base_grid - 1) ∧
      ¬(r < 3 ∧ c < 3) := by
  have hd3 : d % 3 < 3 := Nat.mod_lt _ (by omega)
  have hrand : randint 3 5 d = 3 + d % 3 := by
    unfold randint
    norm_num
  have hpplen : possible_positions.length = 47 := by decide
  have hπlen : π.length = 47 := by rw [hperm.length_eq, hpplen]
  have hnum : min (randint 3 5 d) π.length = 3 + d % 3 := by
    rw [hrand, hπlen]
    omega
  have htlen : (π.take (min (randint 3 5 d) π.length)).length = 3 + d % 3 := by
    rw [List.length_take, hnum, hπlen]
    omega
  have htsub : (π.take (min (randint 3 5 d) π.length)).Sublist π :=
    List.take_sublist _ _
  have hπnd : π.Nodup := hperm.nodup_iff.mpr (by decide)
  have htnd : (π.take (min (randint 3 5 d) π.length)).Nodup :=
    htsub.nodup hπnd
  have htpp : ∀ p ∈ π.take (min (randint 3 5 d) π.length),
      p ∈ possible_positions :=
    fun p hp => hperm.mem_iff.mp (htsub.mem hp)
  have hppb : ∀ p ∈ possible_positions, p.1 < 10 ∧ p.2 < 10 := by decide
  have htb : ∀ p ∈ π.take (min (randint 3 5 d) π.length),
      p.1 < 10 ∧ p.2 < 10 :=
    fun p hp => hppb p (htpp p hp)
  have hvb : Vdims base_grid 10 10 := by decide
  have htni : ∀ p ∈ π.take (min (randint 3 5 d) π.length),
      gget base_grid p.1 p.2 ≠ 'I' :=
    fun p _ => base_grid_no_seed p.1 p.2
  constructor
  · have hcount : seedCount (generate_grid d π) =
        seedCount base_grid + (3 + d % 3) := by
      unfold generate_grid
      rw [foldSeeds_count _ base_grid hvb htb htnd htni, htlen]
    rw [hcount]
    have hbase : seedCount base_grid = 0 := by decide
    omega
  · intro r c hseed
    unfold generate_grid at hseed
    rw [foldSeeds_gget _ base_grid hvb htb r c] at hseed
    by_cases hmem : (r, c) ∈ π.take (min (randint 3 5 d) π.length)
    · have hin := htpp _ hmem
      revert hin
      have hgoal : ∀ p ∈ possible_positions,
          gget base_grid p.1 p.2 = '.' ∧ Cdim base_grid / 2 ≤ p.2 ∧
          p.2 < Cdim base_grid ∧ p.1 < Rdim base_grid ∧
          (p.1, p.2) ≠ (0, 0) ∧ (p.1, p.2) ≠ (0, Cdim base_grid - 1) ∧
          ¬(p.1 < 3 ∧ p.2 < 3) := by decide
      intro hin
      exact hgoal (r, c) hin
    · rw [if_neg hmem] at hseed
      exact absurd hseed (base_grid_no_seed r c)

/-- Witness for C6 at a concrete draw and the identity shuffle. -/
theorem claim_C6_witness :
    3 ≤ seedCount (generate_grid 0 possible_positions) ∧
      seedCount (generate_grid 0 possible_positions) ≤ 5 :=
  (claim_C6_seed_placement 0 possible_positions (List.Perm.refl _)).1

/-! ### Safe-path theory for the reachability analysis -/

theorem ltNatFT_mono {s1 s : Nat} (h : s1 ≤ s) {v : FT}
    (hv : ltNatFT s v = true) : ltNatFT s1 v = true := by
  cases v with
  | none => rfl
  | some t =>
    simp only [ltNatFT, decide_eq_true_eq] at hv ⊢
    omega

theorem okT_mono {g : List (List Char)} {ice : List (List FT)}
    {p : Nat × Nat} {s1 s : Nat} (h : s1 ≤ s) (hok : okT g ice p s) :
    okT g ice p s1 :=
  ⟨hok.1, hok.2.1, hok.2.2.1, ltNatFT_mono h hok.2.2.2⟩

theorem SPath_zero {g : List (List Char)} {ice : List (List FT)}
    {p : Nat × Nat} (h : SPath g ice p 0) : p = (0, 0) := by
  cases h
  rfl

theorem SReach_zero_iff {g : List (List Char)} {ice : List (List FT)}
    {p : Nat × Nat} : SReach g ice 0 p ↔ p = (0, 0) := by
  constructor
  · rintro ⟨s, hs, hp⟩
    have : s = 0 := by omega
    subst this
    exact SPath_zero hp
  · rintro rfl
    exact ⟨0, Nat.le_refl _, SPath.nil⟩

theorem SReach_mono {g : List (List Char)} {ice : List (List FT)}
    {k k1 : Nat} (h : k ≤ k1) {p : Nat × Nat} (hp : SReach g ice k p) :
    SReach g ice k1 p := by
  obtain ⟨s, hs, hpath⟩ := hp
  exact ⟨s, by omega, hpath⟩

theorem Fro_reach {g : List (List Char)} {ice : List (List FT)}
    {k : Nat} {p : Nat × Nat} (h : Fro g ice k p) : SReach g ice k p := by
  cases k with
  | zero =>
    have : p = (0, 0) := h
    subst this
    exact ⟨0, Nat.le_refl _, SPath.nil⟩
  | succ k => exact h.1

theorem reach_extend {g : List (List Char)} {ice : List (List FT)}
    {j s : Nat} {a p : Nat × Nat} (hj : SReach g ice j a) (hadj : adjP a p)
    (hok : okT g ice p s) (hs : j + 1 ≤ s) : SReach g ice (j + 1) p := by
  obtain ⟨s0, hs0, hpath⟩ := hj
  exact ⟨s0 + 1, by omega,
    SPath.cons hpath hadj (okT_mono (by omega) hok)⟩

theorem Fro_of_reach {g : List (List Char)} {ice : List (List FT)} :
    ∀ (k : Nat) (p : Nat × Nat), SReach g ice k p →
      ∃ j, j ≤ k ∧ Fro g ice j p := by
  intro k
  induction k with
  | zero =>
    intro p hp
    exact ⟨0, Nat.le_refl _, SReach_zero_iff.mp hp⟩
  | succ k ih =>
    intro p hp
    by_cases hk : SReach g ice k p
    · obtain ⟨j, hj, hfro⟩ := ih p hk
      exact ⟨j, by omega, hfro⟩
    · exact ⟨k + 1, Nat.le_refl _, hp, hk⟩

theorem frontier_step {g : List (List Char)} {ice : List (List FT)}
    {k : Nat} {p : Nat × Nat} :
    Fro g ice (k + 1) p ↔
      ¬ SReach g ice k p ∧
        ∃ a, Fro g ice k a ∧ adjP a p ∧ okT g ice p (k + 1) := by
  constructor
  · rintro ⟨hr, hnr⟩
    refine ⟨hnr, ?_⟩
    obtain ⟨s, hs, hpath⟩ := hr
    have hsk : s = k + 1 := by
      by_contra hne
      exact hnr ⟨s, by omega, hpath⟩
    subst hsk
    cases hpath with
    | cons hpa hadj hok =>
      rename_i a
      have hra : SReach g ice k a := ⟨k, Nat.le_refl _, hpa⟩
      obtain ⟨j, hj, hfro⟩ := Fro_of_reach k a hra
      rcases Nat.lt_or_ge j k with hjk | hjk
      · exfalso
        have hre := reach_extend (Fro_reach hfro) hadj hok (by omega)
        exact hnr (SReach_mono (by omega) hre)
      · have : j = k := by omega
        subst this
        exact ⟨a, hfro, hadj, hok⟩
  · rintro ⟨hnr, a, hfro, hadj, hok⟩
    have hre := reach_extend (Fro_reach hfro) hadj hok (Nat.le_refl _)
    exact ⟨hre, hnr⟩

theorem Fro_empty_succ {g : List (List Char)} {ice : List (List FT)}
    {k : Nat} (h : ∀ p, ¬ Fro g ice (k + 1) p) :
    ∀ j, k ≤ j → ∀ p, ¬ Fro g ice (j + 1) p := by
  intro j
  induction j with
  | zero =>
    intro hk p
    have : k = 0 := by omega
    subst this
    exact h p
  | succ j ih =>
    intro hk p
    rcases Nat.lt_or_ge k (j + 1) with hkj | hkj
    · intro hfro
      obtain ⟨-, a, hfa, -, -⟩ := frontier_step.mp hfro
      exact ih (by omega) a hfa
    · have : k = j + 1 + 1 - 1 := by omega
      have hk2 : k = j + 1 := by omega
      subst hk2
      exact h p

theorem reach_stable {g : List (List Char)} {ice : List (List FT)}
    {k : Nat} (h : ∀ p, ¬ Fro g ice (k + 1) p) :
    ∀ j p, SReach g ice j p → SReach g ice k p := by
  intro j
  induction j with
  | zero => exact fun p hp => SReach_mono (Nat.zero_le _) hp
  | succ j ih =>
    intro p hp
    rcases Nat.lt_or_ge j k with hjk | hjk
    · exact SReach_mono (by omega) hp
    · by_cases hj : SReach g ice j p
      · exact ih p hj
      · exfalso
        have hfro : Fro g ice (j + 1) p := ⟨hp, hj⟩
        exact Fro_empty_succ h j hjk p hfro

theorem min_path_fro {g : List (List Char)} {ice : List (List FT)}
    {p : Nat × Nat} {m : Nat} (hm : SPath g ice p m)
    (hmin : ∀ j, SPath g ice p j → m ≤ j) : Fro g ice m p := by
  cases m with
  | zero => exact SPath_zero hm
  | succ m =>
    refine ⟨⟨m + 1, Nat.le_refl _, hm⟩, ?_⟩
    rintro ⟨s, hs, hpath⟩
    have := hmin s hpath
    omega

/-! ### Characterisation of one BFS expansion step -/

theorem adjD_weaken {d : Int × Int} {ds : List (Int × Int)}
    {p q : Nat × Nat} (h : adjD ds p q) : adjD (d :: ds) p q := by
  obtain ⟨d2, hd2, he⟩ := h
  exact ⟨d2, List.mem_cons_of_mem _ hd2, he⟩

theorem bfsExpand_spec (g : List (List Char)) (ice : List (List FT))
    (r c steps : Nat) :
    ∀ (ds : List (Int × Int)) (q : List (Nat × Nat × Nat))
      (v : List (List Bool)), Vdims v (Rdim g) (Cdim g) →
      ∃ Δ w,
        bfsExpand g ice (Rdim g) (Cdim g) r c steps ds (q, v) = (q ++ Δ, w) ∧
        (∀ e ∈ Δ, e.2.2 = steps + 1 ∧ adjD ds (r, c) (e.1, e.2.1) ∧
          okT g ice (e.1, e.2.1) (steps + 1) ∧ vget v e.1 e.2.1 = false) ∧
        (∀ p : Nat × Nat, adjD ds (r, c) p → okT g ice p (steps + 1) →
          vget v p.1 p.2 = false → (p.1, p.2, steps + 1) ∈ Δ) ∧
        (∀ a b, vget w a b = true ↔
          (vget v a b = true ∨ ∃ e ∈ Δ, e.1 = a ∧ e.2.1 = b)) ∧
        Vdims w (Rdim g) (Cdim g) ∧
        countFalse w + Δ.length = countFalse v := by
  intro ds
  induction ds with
  | nil =>
    intro q v hv
    refine ⟨[], v, by simp [bfsExpand], ?_, ?_, ?_, hv, by simp⟩
    · intro e he
      cases he
    · rintro p ⟨d, hd, -⟩ - -
      cases hd
    · intro a b
      simp
  | cons d ds ih =>
    intro q v hv
    simp only [bfsExpand]
    split
    case isTrue h =>
      obtain ⟨hin, hvf, hwall, hlt⟩ := h
      have hb1 : ((r : Int) + d.1).toNat < Rdim g := by
        rcases hin with ⟨h1, h2, h3, h4⟩
        omega
      have hb2 : ((c : Int) + d.2).toNat < Cdim g := by
        rcases hin with ⟨h1, h2, h3, h4⟩
        omega
      have hIr : ((((r : Int) + d.1).toNat : Nat) : Int) = (r : Int) + d.1 := by
        rcases hin with ⟨h1, h2, h3, h4⟩
        omega
      have hIc : ((((c : Int) + d.2).toNat : Nat) : Int) = (c : Int) + d.2 := by
        rcases hin with ⟨h1, h2, h3, h4⟩
        omega
      have hokT : okT g ice (((r : Int) + d.1).toNat, ((c : Int) + d.2).toNat)
          (steps + 1) := ⟨hb1, hb2, hwall, hlt⟩
      have hadj0 : adjD (d :: ds) (r, c)
          (((r : Int) + d.1).toNat, ((c : Int) + d.2).toNat) :=
        ⟨d, List.mem_cons_self _ _, hIr, hIc⟩
      have hvset : Vdims (mset v ((r : Int) + d.1).toNat
          ((c : Int) + d.2).toNat true) (Rdim g) (Cdim g) := Vdims_mset hv _ _ _
      have hvself : vget (mset v ((r : Int) + d.1).toNat
          ((c : Int) + d.2).toNat true) ((r : Int) + d.1).toNat
          ((c : Int) + d.2).toNat = true := by
        apply mgetD_mset_self
        · rw [hv.1]
          exact hb1
        · rw [Vdims_getD hv hb1]
          exact hb2
      obtain ⟨Δ1, w, heq, h2, h3, h4, h5, h6⟩ := ih
        (q ++ [(((r : Int) + d.1).toNat, ((c : Int) + d.2).toNat, steps + 1)])
        (mset v ((r : Int) + d.1).toNat ((c : Int) + d.2).toNat true) hvset
      refine ⟨(((r : Int) + d.1).toNat, ((c : Int) + d.2).toNat, steps + 1) :: Δ1,
        w, ?_, ?_, ?_, ?_, h5, ?_⟩
      · rw [heq, ← List.append_cons]
      · intro e he
        rcases List.mem_cons.mp he with rfl | he2
        · exact ⟨rfl, hadj0, hokT, hvf⟩
        · obtain ⟨hs, hadj, hok, hvg⟩ := h2 e he2
          refine ⟨hs, adjD_weaken hadj, hok, ?_⟩
          by_cases hpe : ((((r : Int) + d.1).toNat, ((c : Int) + d.2).toNat) :
              Nat × Nat) = (e.1, e.2.1)
          · exfalso
            have h1e : ((r : Int) + d.1).toNat = e.1 := congrArg Prod.fst hpe
            have h2e : ((c : Int) + d.2).toNat = e.2.1 := congrArg Prod.snd hpe
            have hvself2 : vget (mset v ((r : Int) + d.1).toNat
                ((c : Int) + d.2).toNat true) e.1 e.2.1 = true := by
              rw [← h1e, ← h2e]
              exact hvself
            rw [hvself2] at hvg
            cases hvg
          · have hne : vget (mset v ((r : Int) + d.1).toNat
                ((c : Int) + d.2).toNat true) e.1 e.2.1 = vget v e.1 e.2.1 :=
              mgetD_mset_ne v _ _ _ _ true false hpe
            rw [hne] at hvg
            exact hvg
      · intro p hadj hok hvp
        obtain ⟨d2, hd2, hep1, hep2⟩ := hadj
        rcases List.mem_cons.mp hd2 with rfl | hd2in
        · have hp1 : p.1 = ((r : Int) + d2.1).toNat := by omega
          have hp2 : p.2 = ((c : Int) + d2.2).toNat := by omega
          have hgoal : (p.1, p.2, steps + 1) =
              (((r : Int) + d2.1).toNat, ((c : Int) + d2.2).toNat, steps + 1) := by
            rw [hp1, hp2]
          rw [hgoal]
          exact List.mem_cons_self _ _
        · by_cases hpe : ((((r : Int) + d.1).toNat, ((c : Int) + d.2).toNat) :
              Nat × Nat) = (p.1, p.2)
          · have h1e : ((r : Int) + d.1).toNat = p.1 := congrArg Prod.fst hpe
            have h2e : ((c : Int) + d.2).toNat = p.2 := congrArg Prod.snd hpe
            have hgoal : (p.1, p.2, steps + 1) =
                (((r : Int) + d.1).toNat, ((c : Int) + d.2).toNat, steps + 1) := by
              rw [h1e, h2e]
            rw [hgoal]
            exact List.mem_cons_self _ _
          · have hne : vget (mset v ((r : Int) + d.1).toNat
                ((c : Int) + d.2).toNat true) p.1 p.2 = vget v p.1 p.2 :=
              mgetD_mset_ne v _ _ _ _ true false hpe
            have hmem := h3 p ⟨d2, hd2in, hep1, hep2⟩ hok (by rw [hne]; exact hvp)
            exact List.mem_cons_of_mem _ hmem
      · intro a b
        rw [h4 a b]
        by_cases hpe : ((((r : Int) + d.1).toNat, ((c : Int) + d.2).toNat) :
            Nat × Nat) = (a, b)
        · have h1e : ((r : Int) + d.1).toNat = a := congrArg Prod.fst hpe
          have h2e : ((c : Int) + d.2).toNat = b := congrArg Prod.snd hpe
          have hL : vget (mset v ((r : Int) + d.1).toNat
              ((c : Int) + d.2).toNat true) a b = true := by
            rw [← h1e, ← h2e]
            exact hvself
          have hR : ∃ e ∈ (((r : Int) + d.1).toNat,
              ((c : Int) + d.2).toNat, steps + 1) :: Δ1, e.1 = a ∧ e.2.1 = b :=
            ⟨_, List.mem_cons_self _ _, h1e, h2e⟩
          constructor
          · intro _
            exact Or.inr hR
          · intro _
            exact Or.inl hL
        · have hne : vget (mset v ((r : Int) + d.1).toNat
              ((c : Int) + d.2).toNat true) a b = vget v a b :=
            mgetD_mset_ne v _ _ _ _ true false hpe
          rw [hne]
          constructor
          · rintro (hva | ⟨e, he, he1, he2⟩)
            · exact Or.inl hva
            · exact Or.inr ⟨e, List.mem_cons_of_mem _ he, he1, he2⟩
          · rintro (hva | ⟨e, he, he1, he2⟩)
            · exact Or.inl hva
            · rcases List.mem_cons.mp he with rfl | he3
              · exact absurd (by simp only [Prod.mk.injEq]; exact ⟨he1, he2⟩) hpe
              · exact Or.inr ⟨e, he3, he1, he2⟩
      · have hdec := countFalse_mset v hv ((r : Int) + d.1).toNat
          ((c : Int) + d.2).toNat hb1 hb2 hvf
        simp only [List.length_cons]
        omega
    case isFalse h =>
      obtain ⟨Δ, w, heq, h2, h3, h4, h5, h6⟩ := ih q v hv
      refine ⟨Δ, w, heq, ?_, ?_, h4, h5, h6⟩
      · intro e he
        obtain ⟨hs, hadj, hok, hvg⟩ := h2 e he
        exact ⟨hs, adjD_weaken hadj, hok, hvg⟩
      · intro p hadj hok hvp
        obtain ⟨d2, hd2, hep1, hep2⟩ := hadj
        rcases List.mem_cons.mp hd2 with rfl | hd2in
        · exfalso
          apply h
          have hp1 : p.1 = ((r : Int) + d2.1).toNat := by omega
          have hp2 : p.2 = ((c : Int) + d2.2).toNat := by omega
          obtain ⟨hokr, hokc, hokw, hokl⟩ := hok
          refine ⟨⟨?_, ?_, ?_, ?_⟩, ?_, ?_, ?_⟩
          · omega
          · rw [← hep1]
            exact_mod_cast Int.ofNat_lt.mpr hokr
          · omega
          · rw [← hep2]
            exact_mod_cast Int.ofNat_lt.mpr hokc
          · rw [← hp1, ← hp2]
            exact hvp
          · rw [← hp1, ← hp2]
            exact hokw
          · rw [← hp1, ← hp2]
            exact hokl
        · exact h3 p ⟨d2, hd2in, hep1, hep2⟩ hok hvp

theorem cellIn_nil {p : Nat × Nat} : ¬ cellIn [] p := by
  rintro ⟨e, he, -⟩
  cases he

theorem cellIn_append {l1 l2 : List (Nat × Nat × Nat)} {p : Nat × Nat} :
    cellIn (l1 ++ l2) p ↔ cellIn l1 p ∨ cellIn l2 p := by
  constructor
  · rintro ⟨e, he, h1, h2⟩
    rcases List.mem_append.mp he with he2 | he2
    · exact Or.inl ⟨e, he2, h1, h2⟩
    · exact Or.inr ⟨e, he2, h1, h2⟩
  · rintro (⟨e, he, h1, h2⟩ | ⟨e, he, h1, h2⟩)
    · exact ⟨e, List.mem_append_left _ he, h1, h2⟩
    · exact ⟨e, List.mem_append_right _ he, h1, h2⟩

/-- When level `k` is fully processed (`A = []`), the state is exactly the
start-of-level state for level `k + 1`. -/
theorem levelUp (g : List (List Char)) (ice : List (List FT)) (k : Nat)
    (B : List (Nat × Nat × Nat)) (v : List (List Bool))
    (done : List (Nat × Nat)) (hinv : MidInv g ice k [] B v done) :
    MidInv g ice (k + 1) B [] v [] := by
  obtain ⟨hA, hB, hBc, hD, hCov, hVis, hVd⟩ := hinv
  have hBF : ∀ p : Nat × Nat, cellIn B p ↔ Fro g ice (k + 1) p := by
    intro p
    constructor
    · intro hp
      obtain ⟨hnr, a, ha, hadj, hok⟩ := (hBc p).mp hp
      exact frontier_step.mpr ⟨hnr, a, hD a ha, hadj, hok⟩
    · intro hp
      obtain ⟨hnr, a, hfa, hadj, hok⟩ := frontier_step.mp hp
      have ha : a ∈ done := by
        rcases hCov a hfa with h | h
        · exact h
        · exact absurd h cellIn_nil
      exact (hBc p).mpr ⟨hnr, a, ha, hadj, hok⟩
  refine ⟨?_, ?_, ?_, ?_, ?_, ?_, hVd⟩
  · intro e he
    refine ⟨hB e he, ?_⟩
    exact (hBF (e.1, e.2.1)).mp ⟨e, he, rfl, rfl⟩
  · intro e he
    cases he
  · intro p
    constructor
    · intro h
      exact absurd h cellIn_nil
    · rintro ⟨-, a, ha, -⟩
      cases ha
  · intro a ha
    cases ha
  · intro a hfa
    exact Or.inr ((hBF a).mpr hfa)
  · intro p
    rw [hVis p]
    constructor
    · rintro (hr | hb)
      · exact Or.inl (SReach_mono (by omega) hr)
      · exact Or.inl (Fro_reach ((hBF p).mp hb))
    · rintro (hr | hb)
      · by_cases hk : SReach g ice k p
        · exact Or.inl hk
        · exact Or.inr ((hBF p).mpr ⟨hr, hk⟩)
      · exact absurd hb cellIn_nil

/-- Processing one level-`k` entry: the expansion appends exactly the newly
discovered level-`k+1` cells and the invariant advances by moving the
entry's cell from `A` to `done`. -/
theorem popStep (g : List (List Char)) (ice : List (List FT)) (k r c : Nat)
    (A2 B : List (Nat × Nat × Nat)) (v : List (List Bool))
    (done : List (Nat × Nat))
    (hinv : MidInv g ice k ((r, c, k) :: A2) B v done) :
    ∃ Δ w,
      bfsExpand g ice (Rdim g) (Cdim g) r c k directions (A2 ++ B, v) =
        ((A2 ++ B) ++ Δ, w) ∧
      MidInv g ice k A2 (B ++ Δ) w (done ++ [(r, c)]) ∧
      countFalse w + Δ.length = countFalse v := by
  obtain ⟨hA, hB, hBc, hD, hCov, hVis, hVd⟩ := hinv
  have hfro : Fro g ice k (r, c) := (hA (r, c, k) (List.mem_cons_self _ _)).2
  obtain ⟨Δ, w, heq, h2, h3, h4, h5, h6⟩ :=
    bfsExpand_spec g ice r c k directions (A2 ++ B) v hVd
  refine ⟨Δ, w, heq, ⟨?_, ?_, ?_, ?_, ?_, ?_, h5⟩, h6⟩
  · intro e he
    exact hA e (List.mem_cons_of_mem _ he)
  · intro e he
    rcases List.mem_append.mp he with he2 | he2
    · exact hB e he2
    · exact (h2 e he2).1
  · intro p
    rw [cellIn_append]
    constructor
    · rintro (hb | hd)
      · obtain ⟨hnr, a, ha, hadj, hok⟩ := (hBc p).mp hb
        exact ⟨hnr, a, List.mem_append_left _ ha, hadj, hok⟩
      · obtain ⟨e, he, he1, he2⟩ := hd
        obtain ⟨-, hadj, hok, hvf⟩ := h2 e he
        have hcell : ((e.1 : Nat), e.2.1) = p := Prod.ext he1 he2
        rw [hcell] at hadj hok
        have hnr : ¬ SReach g ice k p := by
          intro hcon
          have := (hVis p).mpr (Or.inl hcon)
          rw [he1, he2] at hvf
          rw [this] at hvf
          cases hvf
        exact ⟨hnr, (r, c),
          List.mem_append_right _ (List.mem_singleton.mpr rfl), hadj, hok⟩
    · rintro ⟨hnr, a, ha, hadj, hok⟩
      rcases List.mem_append.mp ha with ha2 | ha2
      · exact Or.inl ((hBc p).mpr ⟨hnr, a, ha2, hadj, hok⟩)
      · have haeq : a = (r, c) := List.mem_singleton.mp ha2
        subst haeq
        by_cases hvp : vget v p.1 p.2 = true
        · rcases (hVis p).mp hvp with hr | hb
          · exact absurd hr hnr
          · exact Or.inl hb
        · have hmem := h3 p hadj hok (by
            cases hvv : vget v p.1 p.2
            · rfl
            · exact absurd hvv hvp)
          exact Or.inr ⟨(p.1, p.2, k + 1), hmem, rfl, rfl⟩
  · intro a ha
    rcases List.mem_append.mp ha with ha2 | ha2
    · exact hD a ha2
    · rw [List.mem_singleton.mp ha2]
      exact hfro
  · intro a hfa
    rcases hCov a hfa with h | h
    · exact Or.inl (List.mem_append_left _ h)
    · obtain ⟨e, he, he1, he2⟩ := h
      rcases List.mem_cons.mp he with rfl | he3
      · refine Or.inl (List.mem_append_right _ (List.mem_singleton.mpr ?_))
        rcases a with ⟨a1, a2⟩
        simp only at he1 he2
        rw [he1, he2]
      · exact Or.inr ⟨e, he3, he1, he2⟩
  · intro p
    rw [h4 p.1 p.2, hVis p, cellIn_append]
    constructor
    · rintro ((hr | hb) | hd)
      · exact Or.inl hr
      · exact Or.inr (Or.inl hb)
      · exact Or.inr (Or.inr hd)
    · rintro (hr | (hb | hd))
      · exact Or.inl (Or.inl hr)
      · exact Or.inl (Or.inr hb)
      · exact Or.inr hd

/-- If the frontier of level `k + 1` is empty at a level boundary, every
later frontier is empty as well (`Fro_empty_succ`); at such a boundary the
whole queue is empty and the search must answer "unreachable". -/
theorem boundary_empty (g : List (List Char)) (ice : List (List FT))
    (k : Nat) (v : List (List Bool)) (done : List (Nat × Nat))
    (hinv : MidInv g ice k [] [] v done) :
    ∀ p, ¬ Fro g ice (k + 1) p := by
  obtain ⟨hA, hB, hBc, hD, hCov, hVis, hVd⟩ := hinv
  intro p hfro
  obtain ⟨hnr, a, hfa, hadj, hok⟩ := frontier_step.mp hfro
  have ha : a ∈ done := by
    rcases hCov a hfa with h | h
    · exact h
    · exact absurd h cellIn_nil
  exact cellIn_nil ((hBc p).mpr ⟨hnr, a, ha, hadj, hok⟩)

/-- Master lemma, unreachable case: when no safe path reaches the exit, the
search drains its queue and returns `none`. -/
theorem bfs_none (g : List (List Char)) (ice : List (List FT))
    (hnp : ∀ s, ¬ SPath g ice (exitCell g) s) :
    ∀ (n fuel k : Nat) (A B : List (Nat × Nat × Nat)) (v : List (List Bool))
      (done : List (Nat × Nat)),
      2 * fuel + (if A = [] then 1 else 0) ≤ n →
      MidInv g ice k A B v done →
      countFalse v + (A ++ B).length < fuel →
      bfsAux g ice (Rdim g) (Cdim g) fuel (A ++ B) v = none := by
  intro n
  induction n using Nat.strong_induction_on with
  | _ n ih =>
    intro fuel k A B v done hn hinv hfuel
    cases A with
    | nil =>
      cases B with
      | nil =>
        cases fuel with
        | zero => simp at hfuel
        | succ fuel => rfl
      | cons b B2 =>
        have hup := levelUp g ice k (b :: B2) v done hinv
        have hn2 : 2 * fuel + 1 ≤ n := by
          rw [if_pos rfl] at hn
          exact hn
        have hres := ih (2 * fuel) (by omega) fuel (k + 1) (b :: B2) [] v []
          (by simp) hup
          (by
            simp only [List.append_nil, List.nil_append] at hfuel ⊢
            exact hfuel)
        simpa using hres
    | cons e A2 =>
      obtain ⟨r, c, s⟩ := e
      have hs : s = k := (hinv.1 (r, c, s) (List.mem_cons_self _ _)).1
      subst hs
      cases fuel with
      | zero => simp at hfuel
      | succ fuel =>
        have hfro : Fro g ice s (r, c) :=
          (hinv.1 (r, c, s) (List.mem_cons_self _ _)).2
        have hne : ¬ ((r, c) = ((0 : Nat), Cdim g - 1)) := by
          intro heq
          obtain ⟨s2, -, hpath⟩ := Fro_reach hfro
          rw [heq] at hpath
          exact hnp s2 hpath
        obtain ⟨Δ, w, heq, hinv2, hcnt⟩ :=
          popStep g ice s r c A2 B v done hinv
        have hstep : bfsAux g ice (Rdim g) (Cdim g) (fuel + 1)
            (((r, c, s) :: A2) ++ B) v =
            bfsAux g ice (Rdim g) (Cdim g) fuel (A2 ++ (B ++ Δ)) w := by
          simp only [List.cons_append, bfsAux, if_neg hne, List.append_eq,
            heq, List.append_assoc]
        rw [hstep]
        apply ih (2 * fuel + 1) (by
            have hAne : ((r, c, s) :: A2 : List (Nat × Nat × Nat)) ≠ [] := by
              simp
            rw [if_neg hAne] at hn
            omega)
          fuel s A2 (B ++ Δ) w (done ++ [(r, c)])
          (by split <;> omega) hinv2
          (by
            simp only [List.length_append, List.cons_append,
              List.length_cons] at hfuel ⊢
            omega)

/-- Master lemma, reachable case: when the minimal safe-path length to the
exit is `m` and the exit has not yet been dequeued, the search returns
`some m`. -/
theorem bfs_some (g : List (List Char)) (ice : List (List FT)) (m : Nat)
    (hm : SPath g ice (exitCell g) m)
    (hmin : ∀ j, SPath g ice (exitCell g) j → m ≤ j) :
    ∀ (n fuel k : Nat) (A B : List (Nat × Nat × Nat)) (v : List (List Bool))
      (done : List (Nat × Nat)),
      2 * fuel + (if A = [] then 1 else 0) ≤ n →
      MidInv g ice k A B v done →
      countFalse v + (A ++ B).length < fuel →
      k ≤ m →
      exitCell g ∉ done →
      bfsAux g ice (Rdim g) (Cdim g) fuel (A ++ B) v = some m := by
  intro n
  induction n using Nat.strong_induction_on with
  | _ n ih =>
    intro fuel k A B v done hn hinv hfuel hkm hexit
    have hexitfro : Fro g ice m (exitCell g) := min_path_fro hm hmin
    cases hA : A with
    | nil =>
      subst hA
      have hkm2 : k < m := by
        rcases Nat.lt_or_ge k m with h | h
        · exact h
        · exfalso
          have hkm3 : k = m := by omega
          subst hkm3
          rcases hinv.2.2.2.2.1 (exitCell g) hexitfro with h2 | h2
          · exact hexit h2
          · exact cellIn_nil h2
      cases B with
      | nil =>
        exfalso
        have hempty := boundary_empty g ice k v done hinv
        have hstab := reach_stable hempty m (exitCell g)
          ⟨m, Nat.le_refl _, hm⟩
        obtain ⟨s2, hs2, hpath⟩ := hstab
        have := hmin s2 hpath
        omega
      | cons b B2 =>
        have hup := levelUp g ice k (b :: B2) v done hinv
        have hn2 : 2 * fuel + 1 ≤ n := by
          rw [if_pos rfl] at hn
          exact hn
        have hres := ih (2 * fuel) (by omega) fuel (k + 1) (b :: B2) [] v []
          (by simp) hup
          (by
            simp only [List.append_nil, List.nil_append] at hfuel ⊢
            exact hfuel)
          (by omega) (List.not_mem_nil _)
        simpa using hres
    | cons e A2 =>
      subst hA
      obtain ⟨r, c, s⟩ := e
      have hs : s = k := (hinv.1 (r, c, s) (List.mem_cons_self _ _)).1
      subst hs
      cases fuel with
      | zero => simp at hfuel
      | succ fuel =>
        have hfro : Fro g ice s (r, c) :=
          (hinv.1 (r, c, s) (List.mem_cons_self _ _)).2
        by_cases hrc : (r, c) = ((0 : Nat), Cdim g - 1)
        · have hsm : s = m := by
            rcases Nat.lt_or_ge s m with h | h
            · exfalso
              obtain ⟨s2, hs2, hpath⟩ := Fro_reach hfro
              rw [hrc] at hpath
              have := hmin s2 hpath
              omega
            · omega
          subst hsm
          simp only [List.cons_append, bfsAux, if_pos hrc]
        · obtain ⟨Δ, w, heq, hinv2, hcnt⟩ :=
            popStep g ice s r c A2 B v done hinv
          have hstep : bfsAux g ice (Rdim g) (Cdim g) (fuel + 1)
              (((r, c, s) :: A2) ++ B) v =
              bfsAux g ice (Rdim g) (Cdim g) fuel (A2 ++ (B ++ Δ)) w := by
            simp only [List.cons_append, bfsAux, if_neg hrc, List.append_eq,
              heq, List.append_assoc]
          rw [hstep]
          apply ih (2 * fuel + 1) (by
              have hAne : ((r, c, s) :: A2 : List (Nat × Nat × Nat)) ≠ [] := by
                simp
              rw [if_neg hAne] at hn
              omega)
            fuel s A2 (B ++ Δ) w (done ++ [(r, c)])
            (by split <;> omega) hinv2
            (by
              simp only [List.length_append, List.cons_append,
                List.length_cons] at hfuel ⊢
              omega)
            hkm
            (by
              intro hcon
              rcases List.mem_append.mp hcon with h | h
              · exact hexit h
              · have he2 : exitCell g = (r, c) := List.mem_singleton.mp h
                exact hrc (by rw [← he2]; rfl))

theorem mgetD_replicate_default {α : Type} (R C a b : Nat) (x : α) :
    mgetD (List.replicate R (List.replicate C x)) a b x = x := by
  by_cases ha : a < R
  · by_cases hb : b < C
    · exact mgetD_replicate R C a b x x ha hb
    · exact mgetD_out (Vdims_replicate R C x) a b x (Or.inr (by omega))
  · exact mgetD_out (Vdims_replicate R C x) a b x (Or.inl (by omega))

theorem countFalse_replicate (R C : Nat) :
    countFalse (List.replicate R (List.replicate C false)) = R * C := by
  unfold countFalse
  rw [List.map_replicate, List.sum_replicate, smul_eq_mul,
    List.count_replicate_self]

/-- The invariant holds at the start of the search: level 0 consists of the
start cell alone, which is the only visited cell. -/
theorem initInv (g : List (List Char)) (ice : List (List FT))
    (hR : 1 ≤ Rdim g) (hC : 1 ≤ Cdim g) :
    MidInv g ice 0 [(0, 0, 0)] []
      (mset (List.replicate (Rdim g) (List.replicate (Cdim g) false)) 0 0 true)
      [] := by
  have hvd : Vdims (mset (List.replicate (Rdim g)
      (List.replicate (Cdim g) false)) 0 0 true) (Rdim g) (Cdim g) :=
    Vdims_mset (Vdims_replicate _ _ _) _ _ _
  have hself : vget (mset (List.replicate (Rdim g)
      (List.replicate (Cdim g) false)) 0 0 true) 0 0 = true := by
    apply mgetD_mset_self
    · rw [(Vdims_replicate (Rdim g) (Cdim g) false).1]
      exact hR
    · rw [Vdims_getD (Vdims_replicate (Rdim g) (Cdim g) false) hR]
      exact hC
  refine ⟨?_, ?_, ?_, ?_, ?_, ?_, hvd⟩
  · intro e he
    rw [List.mem_singleton.mp he]
    exact ⟨rfl, rfl⟩
  · intro e he
    cases he
  · intro p
    constructor
    · intro h
      exact absurd h cellIn_nil
    · rintro ⟨-, a, ha, -⟩
      cases ha
  · intro a ha
    cases ha
  · intro a hfa
    have : a = ((0 : Nat), (0 : Nat)) := hfa
    subst this
    exact Or.inr ⟨(0, 0, 0), List.mem_singleton.mpr rfl, rfl, rfl⟩
  · intro p
    by_cases hp : ((0, 0) : Nat × Nat) = (p.1, p.2)
    · have h1 : (0 : Nat) = p.1 := congrArg Prod.fst hp
      have h2 : (0 : Nat) = p.2 := congrArg Prod.snd hp
      have hpz : p = ((0 : Nat), (0 : Nat)) := by
        rcases p with ⟨p1, p2⟩
        simp only at h1 h2
        rw [← h1, ← h2]
      constructor
      · intro _
        exact Or.inl (SReach_zero_iff.mpr hpz)
      · intro _
        rw [← h1, ← h2]
        exact hself
    · constructor
      · intro hv
        have hne : vget (mset (List.replicate (Rdim g)
            (List.replicate (Cdim g) false)) 0 0 true) p.1 p.2 =
            vget (List.replicate (Rdim g) (List.replicate (Cdim g) false))
              p.1 p.2 :=
          mgetD_mset_ne _ 0 0 p.1 p.2 true false hp
        have hrep : vget (List.replicate (Rdim g)
            (List.replicate (Cdim g) false)) p.1 p.2 = false :=
          mgetD_replicate_default _ _ _ _ _
        rw [hne, hrep] at hv
        cases hv
      · rintro (hr | hb)
        · exfalso
          apply hp
          rw [SReach_zero_iff.mp hr]
        · exact absurd hb cellIn_nil

/-- `find_shortest_safe_steps` returns `none` when no safe path exists. -/
theorem find_shortest_none (g : List (List Char)) (ice : List (List FT))
    (hR : 1 ≤ Rdim g) (hC : 1 ≤ Cdim g)
    (hnp : ∀ s, ¬ SPath g ice (exitCell g) s) :
    find_shortest_safe_steps g ice = none := by
  have hcf : countFalse (mset (List.replicate (Rdim g)
      (List.replicate (Cdim g) false)) 0 0 true) + 1 =
      Rdim g * Cdim g := by
    rw [countFalse_mset (List.replicate (Rdim g) (List.replicate (Cdim g) false))
      (Vdims_replicate _ _ _) 0 0 hR hC (mgetD_replicate_default _ _ _ _ _),
      countFalse_replicate]
  have hres := bfs_none g ice hnp
    (2 * (Rdim g * Cdim g + 1) + 1) (Rdim g * Cdim g + 1) 0 [(0, 0, 0)] []
    (mset (List.replicate (Rdim g) (List.replicate (Cdim g) false)) 0 0 true)
    [] (by split <;> omega) (initInv g ice hR hC)
    (by
      simp only [List.length_append, List.length_cons, List.length_nil]
      omega)
  simpa using hres

/-- `find_shortest_safe_steps` returns the minimal safe-path length when a
safe path exists. -/
theorem find_shortest_min (g : List (List Char)) (ice : List (List FT))
    (hR : 1 ≤ Rdim g) (hC : 1 ≤ Cdim g) (m : Nat)
    (hm : SPath g ice (exitCell g) m)
    (hmin : ∀ j, SPath g ice (exitCell g) j → m ≤ j) :
    find_shortest_safe_steps g ice = some m := by
  have hcf : countFalse (mset (List.replicate (Rdim g)
      (List.replicate (Cdim g) false)) 0 0 true) + 1 =
      Rdim g * Cdim g := by
    rw [countFalse_mset (List.replicate (Rdim g) (List.replicate (Cdim g) false))
      (Vdims_replicate _ _ _) 0 0 hR hC (mgetD_replicate_default _ _ _ _ _),
      countFalse_replicate]
  have hres := bfs_some g ice m hm hmin
    (2 * (Rdim g * Cdim g + 1) + 1) (Rdim g * Cdim g + 1) 0 [(0, 0, 0)] []
    (mset (List.replicate (Rdim g) (List.replicate (Cdim g) false)) 0 0 true)
    [] (by split <;> omega) (initInv g ice hR hC)
    (by
      simp only [List.length_append, List.length_cons, List.length_nil]
      omega)
    (Nat.zero_le _) (List.not_mem_nil _)
  simpa using hres

/-- C2: for every grid and freeze-time matrix (of positive dimensions),
`find_shortest_safe_steps` returns exactly the minimum length over all safe
paths from (0,0) to the exit — 4-connected paths whose entered (non-start)
cells are in bounds, not Walls, and entered strictly before their freeze
times — and returns `none` exactly when no such path exists. -/
theorem claim_C2_reachability (g : List (List Char)) (ice : List (List FT))
    (hR : 1 ≤ Rdim g) (hC : 1 ≤ Cdim g) :
    (∀ n, find_shortest_safe_steps g ice = some n ↔
      (SPath g ice (exitCell g) n ∧
        ∀ j, SPath g ice (exitCell g) j → n ≤ j)) ∧
    (find_shortest_safe_steps g ice = none ↔
      ∀ s, ¬ SPath g ice (exitCell g) s) := by
  by_cases hex : ∃ s, SPath g ice (exitCell g) s
  · have hmin_ex : ∃ m, SPath g ice (exitCell g) m ∧
        ∀ j, SPath g ice (exitCell g) j → m ≤ j := by
      classical
      exact ⟨Nat.find hex, Nat.find_spec hex,
        fun j hj => Nat.find_min' hex hj⟩
    obtain ⟨m, hm, hmin⟩ := hmin_ex
    have hsome := find_shortest_min g ice hR hC m hm hmin
    constructor
    · intro nn
      rw [hsome]
      constructor
      · intro hsn
        have hnm : m = nn := Option.some.inj hsn
        subst hnm
        exact ⟨hm, hmin⟩
      · rintro ⟨hp, hmin2⟩
        have : m = nn := Nat.le_antisymm (hmin nn hp) (hmin2 m hm)
        rw [this]
    · rw [hsome]
      constructor
      · intro hcon
        cases hcon
      · intro hall
        exact absurd hm (hall m)
  · have hnp : ∀ s, ¬ SPath g ice (exitCell g) s :=
      fun s hs => hex ⟨s, hs⟩
    have hnone := find_shortest_none g ice hR hC hnp
    constructor
    · intro nn
      rw [hnone]
      constructor
      · intro hcon
        cases hcon
      · rintro ⟨hp, -⟩
        exact absurd hp (hnp nn)
    · rw [hnone]
      exact ⟨fun _ => hnp, fun _ => rfl⟩

/-- Witness for C2: on a 1×2 open grid with infinite freeze times the
search returns 1, the length of the one-step safe path to the exit. -/
theorem claim_C2_witness :
    find_shortest_safe_steps [['.', '.']] [[none, none]] = some 1 :=
  ((claim_C2_reachability [['.', '.']] [[none, none]] (by decide)
      (by decide)).1 1).mpr
    ⟨SPath.cons SPath.nil ⟨(0, 1), by decide, by decide, by decide⟩
      (by refine ⟨by decide, by decide, by decide, by decide⟩),
     fun j hj => by
      cases j with
      | zero => exact absurd (SPath_zero hj) (by decide)
      | succ j => omega⟩

/-! ### Termination of the calibration loop (claim C8) -/

/-- A path that avoids Walls and HazardSeed cells is safe for any spread
matrix whose interval exceeds the path length: every non-seed cell freezes
at `inf` or no earlier than the interval. -/
theorem avoid_to_spath (g : List (List Char)) (ice : List (List FT))
    (interval L : Nat)
    (hinv : IceInv g (Rdim g) (Cdim g) interval ice)
    (hbig : L + 1 ≤ interval) :
    ∀ (p : Nat × Nat) (s : Nat), AvoidPath g p s → s ≤ L →
      SPath g ice p s := by
  intro p s hpath
  induction hpath with
  | nil =>
    intro _
    exact SPath.nil
  | cons hp hadj hr hc hw hni ih =>
    rename_i p2 q2 s2
    intro hs
    refine SPath.cons (ih (by omega)) hadj ⟨hr, hc, hw, ?_⟩
    obtain ⟨-, hn⟩ := hinv q2.1 q2.2 hr hc
    rcases hn hni with hnone | ⟨t, ht, hit⟩
    · rw [hnone]
      rfl
    · rw [ht]
      simp only [ltNatFT, decide_eq_true_eq]
      omega

/-- If some iteration of the calibration loop accepts, the loop returns
within that many iterations. -/
theorem gbiAux_reaches (g : List (List Char)) (max_steps : Nat)
    (σ : Nat → Nat → List (Int × Int) × Nat) :
    ∀ (k interval j s : Nat),
      find_shortest_safe_steps g
        (compute_ice_times g (interval + k) (σ (j + k))) = some s →
      s < max_steps →
      (gbiAux g max_steps σ interval j (k + 1)).isSome = true := by
  intro k
  induction k with
  | zero =>
    intro interval j s hfs hlt
    rw [Nat.add_zero, Nat.add_zero] at hfs
    simp only [gbiAux, hfs, if_pos hlt]
    rfl
  | succ k ih =>
    intro interval j s hfs hlt
    have hshift : find_shortest_safe_steps g
        (compute_ice_times g (interval + 1 + k) (σ (j + 1 + k))) = some s := by
      rw [show interval + 1 + k = interval + (k + 1) by omega,
        show j + 1 + k = j + (k + 1) by omega]
      exact hfs
    cases hfs0 : find_shortest_safe_steps g
        (compute_ice_times g interval (σ j)) with
    | none =>
      simp only [gbiAux, hfs0]
      exact ih (interval + 1) (j + 1) s hshift hlt
    | some s0 =>
      simp only [gbiAux, hfs0]
      by_cases hlt0 : s0 < max_steps
      · rw [if_pos hlt0]
        rfl
      · rw [if_neg hlt0]
        exact ih (interval + 1) (j + 1) s hshift hlt

/-- C8 amended: `generate_balanced_ice` terminates — some iteration is
accepted — whenever the exit is reachable from the start by a path through
non-Wall, non-seed cells whose length is strictly below the step budget
(the extra length condition is forced by the counterexample below: the
acceptance test `shortest < max_steps` can never pass when even the
hazard-free shortest path meets the budget). The claim's bare reachability
hypothesis is not sufficient. -/
theorem claim_C8_amended_termination (g : List (List Char)) (max_steps : Nat)
    (σ : Nat → Nat → List (Int × Int) × Nat)
    (hR : 1 ≤ Rdim g) (hC : 1 ≤ Cdim g) (L : Nat)
    (hL : AvoidPath g (exitCell g) L) (hLm : L < max_steps) :
    ∃ fuel, (generate_balanced_ice g max_steps σ fuel).isSome = true := by
  have hinv := (compute_ice_inv g (2 + L) (σ L)).2.1
  have hsp : SPath g (compute_ice_times g (2 + L) (σ L)) (exitCell g) L :=
    avoid_to_spath g _ (2 + L) L hinv (by omega) _ L hL (Nat.le_refl _)
  have hex : ∃ s, SPath g (compute_ice_times g (2 + L) (σ L)) (exitCell g) s :=
    ⟨L, hsp⟩
  have hmin_ex : ∃ m, SPath g (compute_ice_times g (2 + L) (σ L))
      (exitCell g) m ∧
      ∀ j, SPath g (compute_ice_times g (2 + L) (σ L)) (exitCell g) j →
        m ≤ j := by
    classical
    exact ⟨Nat.find hex, Nat.find_spec hex, fun j hj => Nat.find_min' hex hj⟩
  obtain ⟨m, hm, hmin⟩ := hmin_ex
  have hfs := find_shortest_min g _ hR hC m hm hmin
  have hmm : m < max_steps := by
    have := hmin L hsp
    omega
  refine ⟨L + 1, ?_⟩
  have hfs2 : find_shortest_safe_steps g
      (compute_ice_times g (2 + L) (σ (0 + L))) = some m := by
    rw [Nat.zero_add]
    exact hfs
  exact gbiAux_reaches g max_steps σ L 2 0 m hfs2 hmm

/-- Witness for the amended C8 at a concrete 1×2 grid. -/
theorem claim_C8_witness :
    ∃ fuel, (generate_balanced_ice [['.', '.']] 15
      (fun _ => constStream) fuel).isSome = true :=
  claim_C8_amended_termination [['.', '.']] 15 (fun _ => constStream)
    (by decide) (by decide) 1
    (AvoidPath.cons AvoidPath.nil ⟨(0, 1), by decide, by decide, by decide⟩
      (by decide) (by decide) (by decide) (by decide))
    (by decide)

/-- The 17-cell corridor is traversable ignoring hazards: a straight path
of length `i` reaches column `i`. -/
theorem corridor_avoid : ∀ i, i ≤ 16 → AvoidPath corridorGrid (0, i) i := by
  have hopen : ∀ j, j < 17 → gget corridorGrid 0 j = '.' := by decide
  intro i
  induction i with
  | zero =>
    intro _
    exact AvoidPath.nil
  | succ i ih =>
    intro hi
    refine AvoidPath.cons (ih (by omega)) ⟨(0, 1), by decide, ?_, ?_⟩
      ?_ ?_ ?_ ?_
    · show ((0 : Nat) : Int) = ((0 : Nat) : Int) + 0
      decide
    · show ((i + 1 : Nat) : Int) = (i : Int) + 1
      omega
    · show (0 : Nat) < Rdim corridorGrid
      decide
    · show i + 1 < Cdim corridorGrid
      have hcd : Cdim corridorGrid = 17 := rfl
      omega
    · show gget corridorGrid 0 (i + 1) ≠ '#'
      rw [hopen (i + 1) (by omega)]
      decide
    · show gget corridorGrid 0 (i + 1) ≠ 'I'
      rw [hopen (i + 1) (by omega)]
      decide

/-- The calibration loop on the corridor never accepts: the grid has no
seeds, so every freeze time is infinite and the shortest safe path is the
full 16 moves, which is not strictly below the budget of 15. -/
theorem gbi_corridor_none :
    ∀ (fuel interval j : Nat),
      gbiAux corridorGrid 15 (fun _ => constStream) interval j fuel = none := by
  intro fuel
  induction fuel with
  | zero =>
    intro interval j
    rfl
  | succ fuel ih =>
    intro interval j
    have hfs : find_shortest_safe_steps corridorGrid
        (compute_ice_times corridorGrid interval
          ((fun _ => constStream) j)) = some 16 := by
      rw [compute_ice_corridor_noseed]
      decide
    simp only [gbiAux, hfs]
    rw [if_neg (by decide)]
    exact ih (interval + 1) (j + 1)

/-- C8 counterexample: the 1×17 corridor has its exit reachable from the
start through non-Wall, non-seed cells, yet `generate_balanced_ice` (with
its default budget of 15) never terminates on it: no fuel bound makes the
loop return, for this — and in fact any — sequence of draws. -/
theorem claim_C8_counterexample :
    AvoidPath corridorGrid (exitCell corridorGrid) 16 ∧
    ¬ ∃ fuel, (generate_balanced_ice corridorGrid 15
      (fun _ => constStream) fuel).isSome = true := by
  constructor
  · exact corridor_avoid 16 (Nat.le_refl _)
  · rintro ⟨fuel, hcon⟩
    rw [show generate_balanced_ice corridorGrid 15 (fun _ => constStream) fuel
        = none from gbi_corridor_none fuel 2 0] at hcon
    cases hcon

/-! ### The frozen-at-start branch (claim C10) -/

theorem foldSeeds_Vdims {R C : Nat} (S : List (Nat × Nat)) :
    ∀ (g0 : List (List Char)), Vdims g0 R C →
      Vdims (S.foldl (fun g p => mset g p.1 p.2 'I') g0) R C := by
  induction S with
  | nil =>
    intro g0 hv
    exact hv
  | cons p S ih =>
    intro g0 hv
    exact ih (mset g0 p.1 p.2 'I') (Vdims_mset hv _ _ _)

theorem Cdim_of_Vdims {α : Type} {m : List (List α)} {R C : Nat}
    (h : Vdims m R C) (hR : 1 ≤ R) : Cdim m = C := by
  cases m with
  | nil =>
    exfalso
    have := h.1
    simp at this
    omega
  | cons row rest =>
    exact h.2 row (List.mem_cons_self _ _)

/-- C10: for every grid produced by `generate_grid` and every sequence of
draws, the matrix accepted by `generate_balanced_ice` has a freeze time of
at least 2 (or infinity) at the start cell (0,0) — the start is never a
seed, every non-seed freeze time is at least the interval, and the interval
is at least the starting value 2 — so the `ice_time[0][0] <= 0` error
branch of the initialisation code is unreachable. -/
theorem claim_C10_start_unfrozen (d : Nat) (π : List (Nat × Nat))
    (hperm : π.Perm possible_positions) (max_steps fuel : Nat)
    (σ : Nat → Nat → List (Int × Int) × Nat) (ice : List (List FT))
    (itv : Nat)
    (h : generate_balanced_ice (generate_grid d π) max_steps σ fuel =
      some (ice, itv)) :
    (fget ice 0 0 = none ∨ ∃ t, fget ice 0 0 = some t ∧ 2 ≤ t) ∧
    frozen_at_start ice = false := by
  obtain ⟨s, hfs, hlt, hitv, j, hice⟩ :=
    gbiAux_accept (generate_grid d π) max_steps σ fuel 2 0 ice itv h
  have htpp : ∀ p ∈ π.take (min (randint 3 5 d) π.length),
      p ∈ possible_positions :=
    fun p hp => hperm.mem_iff.mp ((List.take_sublist _ _).mem hp)
  have hppb : ∀ p ∈ possible_positions, p.1 < 10 ∧ p.2 < 10 := by decide
  have htb : ∀ p ∈ π.take (min (randint 3 5 d) π.length),
      p.1 < 10 ∧ p.2 < 10 :=
    fun p hp => hppb p (htpp p hp)
  have hgv : Vdims (generate_grid d π) 10 10 :=
    foldSeeds_Vdims _ base_grid (by decide)
  have hnseed : gget (generate_grid d π) 0 0 ≠ 'I' := by
    show gget ((π.take (min (randint 3 5 d) π.length)).foldl
      (fun g p => mset g p.1 p.2 'I') base_grid) 0 0 ≠ 'I'
    rw [foldSeeds_gget _ base_grid (by decide) htb 0 0]
    rw [if_neg (fun hmem => absurd (htpp _ hmem) (by decide))]
    decide
  have hRg : Rdim (generate_grid d π) = 10 := hgv.1
  have hCg : Cdim (generate_grid d π) = 10 :=
    Cdim_of_Vdims hgv (by omega)
  have hinv := (compute_ice_inv (generate_grid d π) itv (σ j)).2.1
  have h00 := (hinv 0 0 (by omega) (by omega)).2 hnseed
  rw [← hice] at h00
  rcases h00 with hnone | ⟨t, ht, hit⟩
  · refine ⟨Or.inl hnone, ?_⟩
    unfold frozen_at_start
    rw [hnone]
    rfl
  · refine ⟨Or.inr ⟨t, ht, by omega⟩, ?_⟩
    unfold frozen_at_start
    rw [ht]
    simp only [leFTNat, decide_eq_false_iff_not]
    omega

/-- Witness for C10: a full concrete run of the pipeline — grid generation
with the identity shuffle, calibration with the `upStream` draws — ends
with the frozen-at-start branch not taken. -/
theorem claim_C10_witness :
    frozen_at_start ((generate_balanced_ice (generate_grid 0
      possible_positions) 15 (fun _ => upStream) 1).getD ([], 0)).1 =
      false :=
  (claim_C10_start_unfrozen 0 possible_positions (List.Perm.refl _) 15 1
    (fun _ => upStream)
    ((generate_balanced_ice (generate_grid 0 possible_positions) 15
      (fun _ => upStream) 1).getD ([], 0)).1
    ((generate_balanced_ice (generate_grid 0 possible_positions) 15
      (fun _ => upStream) 1).getD ([], 0)).2
    (by decide)).2

end EscapeIce
